import Mathlib

/-!
# Verification of the grid router (`src/router.py`)

Shallow embedding of the negotiated-congestion circuit router:
`Point`, `Component`, `Router._pin_escape`, `Router._get_neighbors`,
`Router._astar_multi_target`, the multi-pin net growth loop and the
rip-up / reroute driver `Router.route`, together with the numpy
occupancy-grid operations they use.

Modelling conventions:

* Python `int` is modelled by `Int` (arbitrary precision, like Python).
  The numpy `int` dtype is 64-bit, but every occupancy value reachable
  here is far below 2^63, so `Int` is value-faithful.
* Python `float` is modelled by the exact dyadic-rational type `Dy`
  below.  Every float produced by the router is a dyadic rational with
  tiny exponent and magnitude far below 2^53 (the congestion multiplier
  is `0.5 * 1.5^k` with `k < 4`, history costs are integers, and all
  products/sums stay small), so IEEE-754 double arithmetic is exact on
  them and `Dy` is value-faithful.  `float('inf')` sentinels are
  modelled by `Option Dy` with `none` for infinity.
* numpy element indexing wraps an index `i` with `-n ≤ i < 0` to
  `i + n` and raises `IndexError` outside `[-n, n)`; numpy slice
  bounds are normalised exactly like Python `slice` bounds (add `n`
  to negative bounds, then clamp to `[0, n]`) and never raise.
* Python exceptions are modelled with `Except`; the `while` loops of
  the A* search (and the stub walk / path reconstruction) are modelled
  with explicit fuel, and running out of fuel is a separate error
  (`.fuel`) distinct from every Python-level outcome.
-/

namespace CircuitRouter

/-! ## Exact dyadic rationals (the value model for Python floats) -/

/-- Exact dyadic rational `num / 2 ^ exp`.  Not kept in reduced form;
comparisons and equality are by value (cross-multiplied), matching
IEEE-754 comparison of exactly-represented values. -/
structure Dy where
  num : Int
  exp : Nat
deriving Repr, DecidableEq

def Dy.ofInt (n : Int) : Dy := ⟨n, 0⟩

instance : OfNat Dy n := ⟨Dy.ofInt n⟩

def Dy.add (a b : Dy) : Dy :=
  if a.exp ≤ b.exp then ⟨a.num * 2 ^ (b.exp - a.exp) + b.num, b.exp⟩
  else ⟨a.num + b.num * 2 ^ (a.exp - b.exp), a.exp⟩

def Dy.mul (a b : Dy) : Dy := ⟨a.num * b.num, a.exp + b.exp⟩

def Dy.neg (a : Dy) : Dy := ⟨-a.num, a.exp⟩

instance : Add Dy := ⟨Dy.add⟩
instance : Mul Dy := ⟨Dy.mul⟩
instance : Neg Dy := ⟨Dy.neg⟩
instance : Sub Dy := ⟨fun a b => a + -b⟩

/-- `math.floor` of an exact dyadic value. -/
def Dy.floor (a : Dy) : Int := Int.fdiv a.num (2 ^ a.exp)

/-- `math.ceil` of an exact dyadic value. -/
def Dy.ceil (a : Dy) : Int := -Int.fdiv (-a.num) (2 ^ a.exp)

/-- Value comparison `a < b` (exact, as IEEE-754 compares exact values). -/
def Dy.blt (a b : Dy) : Bool := a.num * 2 ^ b.exp < b.num * 2 ^ a.exp

/-- Value comparison `a ≤ b`. -/
def Dy.ble (a b : Dy) : Bool := a.num * 2 ^ b.exp ≤ b.num * 2 ^ a.exp

/-- Value equality `a == b` (Python float equality is by value). -/
def Dy.beqv (a b : Dy) : Bool := a.num * 2 ^ b.exp == b.num * 2 ^ a.exp

/-- The rational value of a `Dy`. -/
def Dy.toRat (a : Dy) : ℚ := (a.num : ℚ) / 2 ^ a.exp

/-- `0.5`, the initial congestion multiplier. -/
def Dy.half : Dy := ⟨1, 1⟩

/-- `1.5`, the congestion multiplier growth factor. -/
def Dy.threeHalves : Dy := ⟨3, 1⟩

/-! ## `Point` (frozen dataclass, integer grid coordinate) -/

/-- `Point`: integer grid coordinate, value equality/hash. -/
structure Point where
  x : Int
  y : Int
deriving DecidableEq, Repr, Hashable

instance : Add Point := ⟨fun a b => ⟨a.x + b.x, a.y + b.y⟩⟩
instance : Sub Point := ⟨fun a b => ⟨a.x - b.x, a.y - b.y⟩⟩

/-- Python `p < q` on `Point`s: the dataclass defines `__gt__` (tuple
comparison), and CPython evaluates `p < q` via the reflected
`q.__gt__(p)`, i.e. lexicographic on `(x, y)`. -/
def Point.pyLt (a b : Point) : Bool :=
  a.x < b.x || (a.x == b.x && a.y < b.y)

/-- Manhattan distance `abs(p.x - q.x) + abs(p.y - q.y)`. -/
def manhattan (p q : Point) : Int := (p.x - q.x).natAbs + (p.y - q.y).natAbs

/-- Total order on points used only for the dictionary model backing
`came_from` / `g_scores` (Python dicts are pure key-value maps here:
only inserted and looked up, never iterated, so any ordered-map model
is observationally equivalent). -/
def ptCmp : Point → Point → Ordering :=
  compareLex (compareOn (·.x)) (compareOn (·.y))

instance : Ord Point := ⟨ptCmp⟩

instance : Batteries.TransCmp ptCmp := by
  unfold ptCmp; infer_instance

instance : Batteries.TransOrd Point :=
  inferInstanceAs (Batteries.TransCmp ptCmp)

/-- Lexicographic order on `(point, last_direction)` search keys. -/
def keyCmp : (Point × Point) → (Point × Point) → Ordering :=
  compareLex (compareOn (·.1)) (compareOn (·.2))

instance : Batteries.TransCmp keyCmp := by
  unfold keyCmp; infer_instance

/-- The dictionary type for `came_from` / `g_scores`. -/
abbrev KeyMap (V : Type) : Type := Batteries.RBMap (Point × Point) V keyCmp

/-! ## Configuration constants -/

def BEND_PENALTY : Int := 50
def BASE_COST : Int := 1
def MAX_ITERATIONS : Nat := 4
def MARGIN : Int := 2
def OBSTACLE_COST : Int := 100000
/-- The wire stamp added per committed path cell (`100` in `route`). -/
def WIRE_COST : Int := 100

/-! ## `Component` -/

/-- `Component`: named rectangle with float origin and size.  Python
floats are IEEE-754 doubles, i.e. exactly dyadic rationals of this
magnitude, so `Dy` carries them exactly; only margin expansion
(exact here) and `int_bbox` (floor/ceil) are ever computed on them. -/
structure Component where
  name : String
  x : Dy
  y : Dy
  width : Dy
  height : Dy
deriving Repr

/-- Integer bounding box `(min_x, min_y, max_x, max_y)` (floor/ceil). -/
structure IBox where
  xmin : Int
  ymin : Int
  xmax : Int
  ymax : Int
deriving DecidableEq, Repr

/-- `Component.int_bbox`. -/
def Component.int_bbox (c : Component) : IBox :=
  ⟨(c.x).floor, (c.y).floor, (c.x + c.width).ceil, (c.y + c.height).ceil⟩

/-- `Component.__add__(margin)`: expand by `margin` on every side. -/
def Component.addMargin (c : Component) (m : Dy) : Component :=
  ⟨c.name, c.x - m, c.y - m, c.width + m * 2, c.height + m * 2⟩

/-- Membership of a point in a half-open integer box (`xmin <= x < xmax`
and `ymin <= y < ymax`), as tested in `_pin_escape`. -/
def IBox.containsB (bb : IBox) (p : Point) : Bool :=
  bb.xmin ≤ p.x && p.x < bb.xmax && bb.ymin ≤ p.y && p.y < bb.ymax

/-! ## numpy grids

`grid_occupancy` is a `width × height` integer array and
`history_cost` a float array; both are modelled as total functions from
(already normalised, in-range) integer coordinates.  Stamping goes
through numpy element indexing: a negative index `-n ≤ i < 0` silently
wraps to `i + n`, anything outside `[-n, n)` raises `IndexError`. -/

/-- Occupancy grid (`np.zeros((width, height), dtype=int)`). -/
def Grid : Type := Int → Int → Int

/-- History grid (`np.zeros((width, height), dtype=float)`). -/
def HGrid : Type := Int → Int → Dy

/-- numpy element-index normalisation: wrap a negative index, raise
(`none`) out of `[-n, n)`. -/
def npIndex (n i : Int) : Option Int :=
  if 0 ≤ i ∧ i < n then some i
  else if -n ≤ i ∧ i < 0 then some (i + n) else none

/-- `grid[p.x, p.y] += c` — numpy element indexing, may raise. -/
def Grid.addAt (w h : Int) (g : Grid) (p : Point) (c : Int) : Option Grid := do
  let i ← npIndex w p.x
  let j ← npIndex h p.y
  some (fun a b => if a = i ∧ b = j then g a b + c else g a b)

/-- `hist[x, y] += c` for in-range `(x, y)` (only ever called with
coordinates produced by the in-range overlap scan). -/
def HGrid.addAt (g : HGrid) (x y : Int) (c : Dy) : HGrid :=
  fun a b => if a = x ∧ b = y then g a b + c else g a b

/-- Python slice-bound normalisation for length `n`: negative bounds
get `n` added, then the result is clamped to `[0, n]`. -/
def sliceNorm (n i : Int) : Int :=
  if i < 0 then max 0 (i + n) else min i n

/-- `grid[x0:x1, y0:y1] += c` — numpy basic slicing (never raises). -/
def Grid.addSlice (w h : Int) (g : Grid) (bb : IBox) (c : Int) : Grid :=
  fun a b =>
    if sliceNorm w bb.xmin ≤ a ∧ a < sliceNorm w bb.xmax ∧
       sliceNorm h bb.ymin ≤ b ∧ b < sliceNorm h bb.ymax
    then g a b + c else g a b

/-- The all-zero grid (`fill(0)` / `np.zeros`). -/
def Grid.zero : Grid := fun _ _ => 0

/-- The per-cell loop of `add_component`: add `c` to every cell of the
box that lies inside `[0, w) × [0, h)` (the loop's explicit bounds
check), expressed pointwise. -/
def Grid.addBoxClipped (w h : Int) (g : Grid) (bb : IBox) (c : Int) : Grid :=
  fun a b =>
    if bb.xmin ≤ a ∧ a < bb.xmax ∧ bb.ymin ≤ b ∧ b < bb.ymax ∧
       0 ≤ a ∧ a < w ∧ 0 ≤ b ∧ b < h
    then g a b + c else g a b

/-! ## `_pin_escape` -/

/-- Python `min(iterable, key=f)` over an association list: the first
element attaining the minimal value (strict improvement only). -/
def pyMinByLoop (k : Point) (v : Int) : List (Point × Int) → Point
  | [] => k
  | (k2, v2) :: rest =>
    if v2 < v then pyMinByLoop k2 v2 rest else pyMinByLoop k v rest

/-- `min(dists, key=dists.get)` on a non-empty association list (the
four face-distance entries, in dict insertion order). -/
def pyMinBy : List (Point × Int) → Option Point
  | [] => none
  | (k, v) :: rest => some (pyMinByLoop k v rest)

/-- The `while True` stub walk of `_pin_escape`: step in direction `d`
from `p`, appending each visited cell, until the walker leaves the box.
Fuel-indexed (`none` = fuel exhausted, a model artifact only: the walk
is proved to terminate within the supplied fuel for the four unit
directions). Returns the appended cells (excluding the seed `pin`) and
the exit point. -/
def escWalk : Nat → IBox → Point → Point → Option (List Point × Point)
  | 0, _, _, _ => none
  | fuel + 1, bb, d, p =>
    let q := p + d
    if bb.containsB q then
      match escWalk fuel bb d q with
      | none => none
      | some (l, e) => some (q :: l, e)
    else some ([q], q)

/-- Fuel that always suffices for the stub walk of a box. -/
def escFuel (bb : IBox) : Nat :=
  (bb.xmax - bb.xmin).toNat + (bb.ymax - bb.ymin).toNat + 2

/-- The `dists` table of `_pin_escape` (the four face distances, in
dict insertion order: left, right, down, up) followed by Python's
`min(dists, key=dists.get)`. -/
def escapeDir (bb : IBox) (pin : Point) : Option Point :=
  pyMinBy
    [(⟨-1, 0⟩, ((pin.x - bb.xmin).natAbs : Int)),
     (⟨1, 0⟩, ((bb.xmax - pin.x).natAbs : Int)),
     (⟨0, -1⟩, ((pin.y - bb.ymin).natAbs : Int)),
     (⟨0, 1⟩, ((bb.ymax - pin.y).natAbs : Int))]

/-- `Router._pin_escape`: scan components in registration order; on the
first whose margin-expanded integer box contains the pin, walk to the
nearest face (dict-order tie break) and return `(stub path, exit
point)`; otherwise `([], pin)`. -/
def pin_escape (comps : List Component) (pin : Point) :
    Option (List Point × Point) :=
  match comps with
  | [] => some ([], pin)
  | comp :: rest =>
    let bb := (comp.addMargin (Dy.ofInt MARGIN)).int_bbox
    if bb.containsB pin then
      match escapeDir bb pin with
      | none => none
      | some d =>
        match escWalk (escFuel bb) bb d pin with
        | none => none
        | some (l, e) => some (pin :: l, e)
    else pin_escape rest pin

/-! ## `_get_neighbors` -/

/-- In-bounds test for a grid cell. -/
def inGridB (w h : Int) (p : Point) : Bool :=
  0 ≤ p.x && p.x < w && 0 ≤ p.y && p.y < h

/-- `Router._get_neighbors`: the 4-connected neighbours inside the
grid, in the source's direction order. -/
def get_neighbors (w h : Int) (current : Point) : List Point :=
  (([⟨1, 0⟩, ⟨-1, 0⟩, ⟨0, 1⟩, ⟨0, -1⟩] : List Point).map (current + ·)).filter
    (inGridB w h)

/-! ## `heapq` (exact model of CPython's binary heap) -/

/-- A priority-queue entry `(f_score, g_score, current_point,
last_direction)`. -/
structure Entry where
  f : Dy
  g : Dy
  pt : Point
  dir : Point
deriving Repr

instance : Inhabited Entry := ⟨⟨0, 0, ⟨0, 0⟩, ⟨0, 0⟩⟩⟩

/-- Python tuple `<` on entries: elementwise, first difference decides
(`==`/`<` by value on the floats, reflected lexicographic on points). -/
def entryLt (a b : Entry) : Bool :=
  Dy.blt a.f b.f ||
    (Dy.beqv a.f b.f &&
      (Dy.blt a.g b.g ||
        (Dy.beqv a.g b.g &&
          (Point.pyLt a.pt b.pt ||
            (a.pt == b.pt && Point.pyLt a.dir b.dir)))))

/-- `heapq._siftdown(heap, startpos, pos)` with `newitem = heap[pos]`
already read out: move the hole at `pos` up while `newitem` is smaller
than the parent, then drop `newitem` in.  The loop strictly decreases
`pos` (to `(pos-1)/2`), so the explicit fuel — always instantiated
with `pos + 1` — can never run out; it exists only because
well-founded recursion does not reduce inside the kernel. -/
def siftdownLoop (newitem : Entry) (startpos : Nat) :
    Nat → Array Entry → Nat → Array Entry
  | 0, a, pos => a.setD pos newitem
  | fuel + 1, a, pos =>
    if startpos < pos then
      let parentpos := (pos - 1) / 2
      let parent := a.getD parentpos default
      if entryLt newitem parent then
        siftdownLoop newitem startpos fuel (a.setD pos parent) parentpos
      else a.setD pos newitem
    else a.setD pos newitem

/-- The child-promotion loop of `heapq._siftup` (`childpos = 2*pos+1`,
`rightpos = childpos+1`; follow the smaller child).  The loop strictly
increases `pos` below `endpos`, so fuel `endpos + 1` never runs out. -/
def siftupLoop (endpos : Nat) (newitem : Entry) (startpos : Nat) :
    Nat → Array Entry → Nat → Array Entry
  | 0, a, pos => siftdownLoop newitem startpos (pos + 1) (a.setD pos newitem) pos
  | fuel + 1, a, pos =>
    if 2 * pos + 1 < endpos then
      if 2 * pos + 2 < endpos &&
          !entryLt (a.getD (2 * pos + 1) default) (a.getD (2 * pos + 2) default)
      then
        siftupLoop endpos newitem startpos fuel
          (a.setD pos (a.getD (2 * pos + 2) default)) (2 * pos + 2)
      else
        siftupLoop endpos newitem startpos fuel
          (a.setD pos (a.getD (2 * pos + 1) default)) (2 * pos + 1)
    else siftdownLoop newitem startpos (pos + 1) (a.setD pos newitem) pos

/-- `heapq._siftup(heap, pos)`. -/
def siftup (a : Array Entry) (pos : Nat) : Array Entry :=
  siftupLoop a.size (a.getD pos default) pos (a.size + 1) a pos

/-- `heapq.heappush`. -/
def heappush (a : Array Entry) (item : Entry) : Array Entry :=
  siftdownLoop item 0 (a.size + 1) (a.push item) a.size

/-- `heapq.heappop` on a non-empty heap: pop the last element; if the
heap is still non-empty, put it at the root and sift up. -/
def heappop (a : Array Entry) : Entry × Array Entry :=
  let lastelt := a.getD (a.size - 1) default
  let rest := a.pop
  if rest.size = 0 then (lastelt, rest)
  else
    let returnitem := rest.getD 0 default
    (returnitem, siftup (rest.setD 0 lastelt) 0)

/-! ## `_astar_multi_target` -/

/-- Errors: `fuel` is a model artifact (a fuel-indexed loop ran out of
fuel — no Python counterpart); the others model Python exceptions. -/
inductive Err
  | fuel
  | indexError
  | valueError
deriving DecidableEq, Repr

deriving instance DecidableEq for Except

/-- Search parameters fixed during one `_astar_multi_target` call. -/
structure AParams where
  w : Int
  h : Int
  occ : Grid
  hist : HGrid
  targets : List Point
  cm : Dy
  start : Point

/-- The mutable state of the A* `while pq:` loop. -/
structure AState where
  pq : Array Entry
  came_from : KeyMap (Point × Point)
  g_scores : KeyMap Dy
  best : Option (Point × Point)
  min_g : Option Dy

/-- `g >= m` with `m` defaulting to `float('inf')` (`none`). -/
def geOptB (g : Dy) (m : Option Dy) : Bool :=
  match m with
  | none => false
  | some v => Dy.ble v g

/-- `g < m` with `m` defaulting to `float('inf')` (`none`). -/
def ltOptB (g : Dy) (m : Option Dy) : Bool :=
  match m with
  | none => true
  | some v => Dy.blt g v

/-- Python `min()` of a list of ints (raises `ValueError` on empty). -/
def pyMinInt : List Int → Except Err Int
  | [] => .error .valueError
  | x :: xs => .ok (xs.foldl min x)

/-- One `for neighbor in self._get_neighbors(current)` relaxation. -/
def relax (P : AParams) (current last_dir : Point) (g : Dy) (st : AState)
    (neighbor : Point) : Except Err AState :=
  let new_dir := neighbor - current
  let step_cost : Int :=
    BASE_COST +
      if last_dir ≠ (⟨0, 0⟩ : Point) ∧ new_dir ≠ last_dir then BEND_PENALTY
      else 0
  let occv : Int := max 0 (P.occ neighbor.x neighbor.y)
  let histv : Dy := P.hist neighbor.x neighbor.y
  let congestion : Dy :=
    if neighbor ∈ P.targets then Dy.ofInt 0
    else Dy.ofInt occv * P.cm + histv
  let new_g : Dy := g + Dy.ofInt step_cost + congestion
  if ltOptB new_g (st.g_scores.find? (neighbor, new_dir)) then do
    let hval ← pyMinInt (P.targets.map (fun t => manhattan neighbor t))
    .ok { st with
      g_scores := st.g_scores.insert (neighbor, new_dir) new_g
      pq := heappush st.pq ⟨new_g + Dy.ofInt hval, new_g, neighbor, new_dir⟩
      came_from := st.came_from.insert (neighbor, new_dir) (current, last_dir) }
  else .ok st

/-- One iteration of the `while pq:` loop.  Returns the updated state
and `true` to keep looping, or the final state and `false` when the
queue is empty (loop exit). -/
def astarStep (P : AParams) (st : AState) : Except Err (AState × Bool) :=
  if st.pq.size = 0 then .ok (st, false)
  else
    let (e, pq2) := heappop st.pq
    let st := { st with pq := pq2 }
    if geOptB e.g st.min_g then .ok (st, true)
    else if e.pt ∈ P.targets then
      if ltOptB e.g st.min_g then
        .ok ({ st with min_g := some e.g, best := some (e.pt, e.dir) }, true)
      else .ok (st, true)
    else do
      let st2 ← (get_neighbors P.w P.h e.pt).foldlM (relax P e.pt e.dir e.g) st
      .ok (st2, true)

/-- `astarStep` iterated `n` times (stopping at loop exit or error). -/
def runN (P : AParams) : Nat → Except Err (AState × Bool) →
    Except Err (AState × Bool)
  | 0, rs => rs
  | n + 1, rs =>
    match rs with
    | .error e => .error e
    | .ok (st, false) => .ok (st, false)
    | .ok (st, true) => runN P n (astarStep P st)

/-- The fuelled `while pq:` loop: run until exit or fuel exhaustion. -/
def astarLoop (P : AParams) (fuel : Nat) (st : AState) : Except Err AState :=
  match runN P fuel (.ok (st, true)) with
  | .error e => .error e
  | .ok (st2, false) => .ok st2
  | .ok (_, true) => .error .fuel

/-- Path reconstruction (`while curr != start:` with the missing-key
break); accumulates in reverse so the returned list is `path[::-1]`. -/
def reconstructLoop (cf : KeyMap (Point × Point))
    (start : Point) : Nat → Point → Point → List Point →
    Except Err (List Point)
  | 0, _, _, _ => .error .fuel
  | n + 1, curr, dir, acc =>
    if curr = start then .ok (start :: acc)
    else
      match cf.find? (curr, dir) with
      | none => .ok (start :: curr :: acc)
      | some (p, pd) => reconstructLoop cf start n p pd (curr :: acc)

/-- The initial A* state: the queue holds `(0, 0, start, Point(0,0))`
and `g_scores = {(start, Point(0,0)): 0}`. -/
def astarInit (start : Point) : AState :=
  { pq := heappush #[] ⟨0, 0, start, ⟨0, 0⟩⟩
    came_from := Batteries.RBMap.empty
    g_scores := (Batteries.RBMap.empty : KeyMap Dy).insert (start, ⟨0, 0⟩) 0
    best := none
    min_g := none }

/-- `Router._astar_multi_target`: `.ok none` is Python's `return None`
(queue exhausted with no target reached); `.ok (some path)` is a
reconstructed path. -/
def astar_multi_target (w h : Int) (occ : Grid) (hist : HGrid)
    (start : Point) (targets : List Point) (cm : Dy) (fuel : Nat) :
    Except Err (Option (List Point)) :=
  let P : AParams :=
    { w := w, h := h, occ := occ, hist := hist, targets := targets,
      cm := cm, start := start }
  match astarLoop P fuel (astarInit start) with
  | .error e => .error e
  | .ok stF =>
    match stF.best with
    | none => .ok none
    | some (pt, dir) =>
      match reconstructLoop stF.came_from start (stF.came_from.size + 2)
          pt dir [] with
      | .error e => .error e
      | .ok path => .ok (some path)

/-! ## Multi-pin net growth (the `while unconnected_pins:` loop)

Python `set`s of points are modelled as duplicate-free lists in first
insertion order.  Only order-insensitive operations are performed on
them (membership, value-minimisation, removal), except for the
`best_pin` selection scan, whose tie-break depends on CPython's
hash-based set iteration order; the model fixes insertion order there
(every concrete instance below is tie-free, so this choice is never
observable in the theorems). -/

/-- `s.add(p)` on a set-as-list. -/
def setAdd (l : List Point) (p : Point) : List Point :=
  if p ∈ l then l else l ++ [p]

/-- `set(xs)`: duplicate-free list in first-occurrence order. -/
def pySet (xs : List Point) : List Point := xs.foldl setAdd []

/-- The body of the `for p in unconnected_pins:` selection scan:
fold with the current `(best_dist, best_pin)`, strict improvement. -/
def selectScan (routed : List Point) (best : Int × Point) :
    List Point → Except Err (Int × Point)
  | [] => .ok best
  | p :: rest => do
    let d ← pyMinInt (routed.map (fun rp => manhattan p rp))
    if d < best.1 then selectScan routed (d, p) rest
    else selectScan routed best rest

/-- Select the unconnected pin nearest to the routed-pixel set
(Python's `min`-by-distance scan, first-seen tie-break). -/
def selectPin (routed : List Point) (p : Point) (rest : List Point) :
    Except Err (Int × Point) := do
  let d ← pyMinInt (routed.map (fun rp => manhattan p rp))
  selectScan routed (d, p) rest

/-- One net's growth loop.  `gfuel` bounds the number of iterations
(the caller passes the number of unconnected pins, which suffices since
every successful iteration removes a pin and every failure exits).
Returns `(full_net_path, routed_pixels, unconnected_pins)` at loop
exit. -/
def growLoop (w h : Int) (comps : List Component) (occ : Grid)
    (hist : HGrid) (cm : Dy) (afuel : Nat) :
    Nat → List Point → List Point → List Point →
    Except Err (List Point × List Point × List Point)
  | _, [], routed, full => .ok (full, routed, [])
  | 0, unconnected, routed, full =>
    if unconnected.isEmpty then .ok (full, routed, unconnected)
    else .error .fuel
  | gfuel + 1, p :: rest, routed, full => do
    let (_, best_pin) ← selectPin routed p rest
    match pin_escape comps best_pin with
    | none => .error .fuel
    | some (escape_path, escaped_pin) =>
      match astar_multi_target w h occ hist escaped_pin routed cm afuel with
      | .error e => .error e
      | .ok none => .ok (full, routed, p :: rest)
      | .ok (some path) =>
        let full2 := full ++ escape_path ++ path
        let routed2 := (escape_path ++ path).foldl setAdd routed
        growLoop w h comps occ hist cm afuel gfuel
          ((p :: rest).erase best_pin) routed2 full2

/-- Route one non-empty net (`routed_pixels`/`full_net_path` seeding
from pin 0's escape, then the growth loop). -/
def routeNet (w h : Int) (comps : List Component) (occ : Grid)
    (hist : HGrid) (cm : Dy) (afuel : Nat) (p0 : Point)
    (restPins : List Point) : Except Err (List Point) := do
  match pin_escape comps p0 with
  | none => .error .fuel
  | some (escape_path, escape_point) =>
    let full0 := escape_path
    let routed0 := setAdd (escape_path.foldl setAdd []) escape_point
    let unconnected := pySet restPins
    let (full, _, _) ←
      growLoop w h comps occ hist cm afuel unconnected.length
        unconnected routed0 full0
    .ok full

/-! ## `Router.route` (negotiated-congestion driver) -/

/-- The routed-path table `self.routed_paths` (a dict keyed by net id;
association list in insertion order, updates in place like `dict`). -/
abbrev Table : Type := List (Nat × List Point)

def tableFind? (t : Table) (k : Nat) : Option (List Point) :=
  match t.find? (fun e => e.1 = k) with
  | some e => some e.2
  | none => none

def tableSet (t : Table) (k : Nat) (v : List Point) : Table :=
  if (t.find? (fun e => e.1 = k)).isSome then
    t.map (fun e => if e.1 = k then (k, v) else e)
  else t ++ [(k, v)]

/-- Router configuration after `__init__` / `add_component` / `add_net`
(the constructor and registration calls only build these lists). -/
structure Config where
  width : Int
  height : Int
  components : List Component
  nets : List (List Point)

/-- The driver state across iterations (plus bookkeeping fields
`lastOverlaps` — the `overlaps` list of the most recently finished
iteration — and `iters`, the number of executed iterations). -/
structure RState where
  occ : Grid
  hist : HGrid
  table : Table
  cm : Dy
  lastOverlaps : List (Int × Int)
  iters : Nat

/-- Stamp (`c = WIRE_COST`) or rip (`c = -WIRE_COST`) a path's cells:
the `for p in path: grid_occupancy[p.x, p.y] += c` loops of `route`. -/
def stampPath (w h : Int) (g : Grid) (path : List Point) (c : Int) :
    Except Err Grid :=
  path.foldlM
    (fun g2 p =>
      match Grid.addAt w h g2 p c with
      | none => .error Err.indexError
      | some g3 => .ok g3)
    g

/-- Step 2 of an iteration: every component's margin box slice-stamped
with `OBSTACLE_COST` onto the zeroed grid. -/
def compOcc (w h : Int) (comps : List Component) : Grid :=
  comps.foldl
    (fun g c => Grid.addSlice w h g ((c.addMargin (Dy.ofInt MARGIN)).int_bbox)
      OBSTACLE_COST)
    Grid.zero

/-- Steps 1–3 of an iteration: zero the grid, re-stamp every
component's margin box by numpy slice, re-stamp every committed path
cell by element indexing (the per-path loop is `stampPath`). -/
def rebuiltOcc (w h : Int) (comps : List Component) (t : Table) :
    Except Err Grid :=
  t.foldlM (fun g e => stampPath w h g e.2 WIRE_COST) (compOcc w h comps)

/-- The occupancy grid right after net `net_id`'s self rip-up
(`for p in self.routed_paths[net_id]: occupancy[p] -= 100`, skipped
when the net has no committed path). -/
def ripOwn (w h : Int) (t : Table) (net_id : Nat) (occ : Grid) :
    Except Err Grid :=
  match tableFind? t net_id with
  | some oldpath => stampPath w h occ oldpath (-WIRE_COST)
  | none => .ok occ

/-- Process one net inside an iteration: self rip-up, fresh growth,
commit the new path, re-stamp it. -/
def processNet (w h : Int) (comps : List Component) (hist : HGrid)
    (cm : Dy) (afuel : Nat) (st : Grid × Table) (idpins : Nat × List Point) :
    Except Err (Grid × Table) :=
  match idpins.2 with
  | [] => .ok st
  | p0 :: rest => do
    let occ1 ← ripOwn w h st.2 idpins.1 st.1
    let full ← routeNet w h comps occ1 hist cm afuel p0 rest
    let table2 := tableSet st.2 idpins.1 full
    let occ2 ← stampPath w h occ1 full WIRE_COST
    .ok (occ2, table2)

/-- The routed-path table with net `k`'s entry omitted ("had that
net's path never been stamped"). -/
def tableErase (t : Table) (k : Nat) : Table :=
  t.filter (fun e => e.1 != k)

/-- Whether a point's numpy element indices both normalise (stamping
it raises no `IndexError`). -/
def ptOkB (w h : Int) (p : Point) : Bool :=
  (npIndex w p.x).isSome && (npIndex h p.y).isSome

/-- Whether a point stamps onto cell `(a, b)` after numpy index
normalisation. -/
def stampsTo (w h : Int) (p : Point) (a b : Int) : Bool :=
  npIndex w p.x == some a && npIndex h p.y == some b

/-- How many stamps a path deposits on cell `(a, b)` (cell occurrences
counted with multiplicity, after index normalisation). -/
def pathStampCount (w h : Int) (path : List Point) (a b : Int) : Int :=
  (path.countP (fun p => stampsTo w h p a b) : Int)

/-- Total wire stamps deposited on cell `(a, b)` by all committed
paths of a table. -/
def tableStampCount (w h : Int) (t : Table) (a b : Int) : Int :=
  (t.map (fun e => pathStampCount w h e.2 a b)).sum

/-- Step 5: the overlap scan (`x`-major, `y` inner), flagging cells
whose occupancy modulo `OBSTACLE_COST` exceeds one wire stamp. -/
def overlapScan (w h : Int) (occ : Grid) : List (Int × Int) :=
  (List.range w.toNat).bind
    (fun x =>
      (List.range h.toNat).filterMap
        (fun y =>
          if occ (Int.ofNat x) (Int.ofNat y) % OBSTACLE_COST > WIRE_COST
          then some ((Int.ofNat x : Int), (Int.ofNat y : Int)) else none))

/-- One full iteration of the `for iteration in range(MAX_ITERATIONS)`
loop body.  Returns the new state and `true` to continue, or `false`
for the `break` on zero overlaps. -/
def iterBody (cfg : Config) (afuel : Nat) (iteration : Nat) (st : RState) :
    Except Err (RState × Bool) := do
  let occ0 ← rebuiltOcc cfg.width cfg.height cfg.components st.table
  let (occ1, table1) ←
    cfg.nets.enum.foldlM
      (processNet cfg.width cfg.height cfg.components st.hist st.cm afuel)
      (occ0, st.table)
  let ovl := overlapScan cfg.width cfg.height occ1
  if ovl.length = 0 then
    .ok (⟨occ1, st.hist, table1, st.cm, ovl, st.iters + 1⟩, false)
  else
    let hist2 :=
      ovl.foldl
        (fun hg e => HGrid.addAt hg e.1 e.2 (Dy.ofInt (10 * (iteration + 1))))
        st.hist
    .ok (⟨occ1, hist2, table1, st.cm * Dy.threeHalves, ovl, st.iters + 1⟩, true)

/-- The iteration loop with its early `break`. -/
def routeLoop (cfg : Config) (afuel : Nat) :
    List Nat → RState → Except Err RState
  | [], st => .ok st
  | it :: rest, st =>
    match iterBody cfg afuel it st with
    | .error e => .error e
    | .ok (st2, false) => .ok st2
    | .ok (st2, true) => routeLoop cfg afuel rest st2

/-- The initial router state (`__init__` zeroes both grids; `route`
sets `congestion_multiplier = 0.5`). -/
def initState : RState :=
  { occ := Grid.zero, hist := fun _ _ => Dy.ofInt 0, table := [],
    cm := Dy.half, lastOverlaps := [], iters := 0 }

/-- `Router.route()`: up to `MAX_ITERATIONS` rip-up/reroute iterations.
`afuel` is the fuel handed to each inner A* queue loop (a model
artifact; every theorem below quantifies over it or instantiates it
concretely). -/
def route (cfg : Config) (afuel : Nat) : Except Err RState :=
  routeLoop cfg afuel (List.range MAX_ITERATIONS) initState



/-! ## Claim-instance configurations -/

/-- C4/C9 scenario component: `Component("C", 5, 5, 2, 2)`; its margin
expansion has integer box `(3, 3, 9, 9)`. -/
def compC4 : Component := ⟨"C", Dy.ofInt 5, Dy.ofInt 5, Dy.ofInt 2, Dy.ofInt 2⟩

/-- C5 counterexample component: `Component("C", 0, 0, 2, 2)`; its
margin expansion has integer box `(-2, -2, 4, 4)`, which extends below
the grid. -/
def compC5 : Component := ⟨"C", Dy.ofInt 0, Dy.ofInt 0, Dy.ofInt 2, Dy.ofInt 2⟩

/-- The all-zero history grid. -/
def HGrid.zero : HGrid := fun _ _ => Dy.ofInt 0

/-- C1 counterexample configuration: 5×5 grid, no components, one net
with pins `[(0,0), (-2,0), (0,3)]`.  Pin `(-2,0)` lies outside the
grid with no in-bounds neighbour, so its A* search exhausts the queue
and returns `None`, while pin `(0,3)` is trivially connectable. -/
def cfgC1 : Config := ⟨5, 5, [], [[⟨0, 0⟩, ⟨-2, 0⟩, ⟨0, 3⟩]]⟩

/-- C2 counterexample component: `Component("C", 4, 4, 1, 1)`; margin
box `(2, 2, 7, 7)`. -/
def compC2 : Component := ⟨"C", Dy.ofInt 4, Dy.ofInt 4, Dy.ofInt 1, Dy.ofInt 1⟩

/-- C2 counterexample configuration: 10×10 grid, one component, ONE net
`[(3,4), (1,4)]` whose first pin sits inside the component margin. -/
def cfgC2 : Config := ⟨10, 10, [compC2], [[⟨3, 4⟩, ⟨1, 4⟩]]⟩

/-- C7 counterexample committed table from a previous iteration:
net 0 committed along `[(3,4), (3,5)]` (differing from what this
iteration's growth recomputes), net 1 along `[(8,1), (8,2)]`. -/
def c7table : Table := [(0, [⟨3, 4⟩, ⟨3, 5⟩]), (1, [⟨8, 1⟩, ⟨8, 2⟩])]

/-- C7 counterexample nets (net 0 is `cfgC2`'s net, whose searches
settle immediately because each start is already routed). -/
def c7nets : List (List Point) := [[⟨3, 4⟩, ⟨1, 4⟩], [⟨8, 1⟩, ⟨8, 2⟩]]

/-- The two sides of C7 observed at cell `(3,5)` at net 1's turn:
iteration-start rebuild, then net 0's processing, then net 1's self
rip-up (left component), versus the iteration-start rebuild with
net 1's path omitted (right component). -/
def c7vals : Except Err (Int × Int) := do
  let occ0 ← rebuiltOcc 10 10 [compC2] c7table
  let (occA, tabA) ←
    (c7nets.enum.take 1).foldlM
      (processNet 10 10 [compC2] HGrid.zero Dy.half 20) (occ0, c7table)
  let occB ← ripOwn 10 10 tabA 1 occA
  let occC ← rebuiltOcc 10 10 [compC2] (tableErase c7table 1)
  .ok (occB 3 5, occC 3 5)

/-- C7 witness table: two nets with committed in-bounds paths on a
5×5 grid. -/
def c7wt : Table := [(0, [⟨1, 1⟩]), (1, [⟨2, 2⟩, ⟨2, 3⟩])]

/-! ## Verification predicates (proof apparatus for the claims below,
not source translation) -/

/-- Every slot of an entry array satisfies `P` (out-of-range reads
give `default`, so `P default` is required where it matters). -/
def arrInv (P : Entry → Prop) (a : Array Entry) : Prop :=
  ∀ i : Nat, P (a.getD i default)

/-- Every value stored in a key map satisfies `P`. -/
def mapInv {α : Type} (P : α → Prop) (m : KeyMap α) : Prop :=
  ∀ k v, m.find? k = some v → P v

/-- The A* in-bounds invariant: every queued point, every `came_from`
value's point, and the recorded best point lie inside the grid. -/
def astInv (w h : Int) (st : AState) : Prop :=
  arrInv (fun e => inGridB w h e.pt = true) st.pq ∧
    mapInv (fun v => inGridB w h v.1 = true) st.came_from ∧
    ∀ b, st.best = some b → inGridB w h b.1 = true

/-- A pin is stampable without exceptions: its escape stub exists and
every stub cell and the exit point lie inside the grid. -/
def pinOkB (w h : Int) (comps : List Component) (pin : Point) : Bool :=
  match pin_escape comps pin with
  | none => false
  | some (stub, exitp) => stub.all (inGridB w h) && inGridB w h exitp

/-- Every pin of every net is stampable without exceptions (the
decidable reading of C8's "pins and components keep all touched cells
within the grid bounds"). -/
def netsOkB (cfg : Config) : Bool :=
  cfg.nets.all (fun net =>
    net.all (pinOkB cfg.width cfg.height cfg.components))

/-- Every committed path of a table lies inside the grid. -/
def tableInB (w h : Int) (t : Table) : Bool :=
  t.all (fun e => e.2.all (inGridB w h))

/-! # Theorems -/

/-! ## C9: the `_pin_escape` tie-break -/

set_option maxHeartbeats 1600000 in
/-- C9: `_pin_escape` resolves face-distance ties deterministically in
the dict insertion order negative-x, positive-x, negative-y,
positive-y: the selected direction is the first of the four whose face
distance attains the minimum (left when its distance is no larger than
the other three; failing that right when its distance is no larger
than the remaining two; failing that down when its distance is no
larger than up's; otherwise up). -/
theorem C9_escape_tiebreak (bb : IBox) (pin : Point) :
    escapeDir bb pin =
      some (
        if ((pin.x - bb.xmin).natAbs : Int) ≤ ((bb.xmax - pin.x).natAbs : Int) ∧
           ((pin.x - bb.xmin).natAbs : Int) ≤ ((pin.y - bb.ymin).natAbs : Int) ∧
           ((pin.x - bb.xmin).natAbs : Int) ≤ ((bb.ymax - pin.y).natAbs : Int)
        then ⟨-1, 0⟩
        else if ((bb.xmax - pin.x).natAbs : Int) ≤ ((pin.y - bb.ymin).natAbs : Int) ∧
                ((bb.xmax - pin.x).natAbs : Int) ≤ ((bb.ymax - pin.y).natAbs : Int)
        then ⟨1, 0⟩
        else if ((pin.y - bb.ymin).natAbs : Int) ≤ ((bb.ymax - pin.y).natAbs : Int)
        then ⟨0, -1⟩
        else ⟨0, 1⟩) := by
  simp only [escapeDir, pyMinBy, pyMinByLoop]
  split_ifs <;> first | rfl | omega

/-! ## C5: `add_component` stamping vs the `route()` slice restamp -/

set_option maxHeartbeats 6400000 in
/-- C5 (amended): the per-cell clipped loop of `add_component` and the
numpy-slice restamp of `route()` stamp identical cells with identical
amounts whenever the margin-expanded integer box's bounds are all
non-negative (over-hang past the upper grid edge is fine: both clip
it).  The counterexample below shows the two diverge when the box
extends below a grid edge, so non-negativity is exactly the needed
restriction. -/
theorem C5_stamp_equivalence (w h : Int) (g : Grid) (bb : IBox) (c : Int)
    (hx0 : 0 ≤ bb.xmin) (hy0 : 0 ≤ bb.ymin)
    (hx1 : 0 ≤ bb.xmax) (hy1 : 0 ≤ bb.ymax) :
    Grid.addBoxClipped w h g bb c = Grid.addSlice w h g bb c := by
  funext a b
  simp only [Grid.addBoxClipped, Grid.addSlice, sliceNorm]
  have e1 : ¬bb.xmin < 0 := by omega
  have e2 : ¬bb.xmax < 0 := by omega
  have e3 : ¬bb.ymin < 0 := by omega
  have e4 : ¬bb.ymax < 0 := by omega
  simp only [if_neg e1, if_neg e2, if_neg e3, if_neg e4, min_def]
  split_ifs <;> first | rfl | omega

/-- C5 witness: the two stampings agree on an in-range box. -/
theorem C5_stamp_equivalence_witness :
    (0 : Int) ≤ 1 ∧
      Grid.addBoxClipped 10 10 Grid.zero ⟨1, 1, 3, 12⟩ 7 =
        Grid.addSlice 10 10 Grid.zero ⟨1, 1, 3, 12⟩ 7 :=
  ⟨by decide,
    C5_stamp_equivalence 10 10 Grid.zero ⟨1, 1, 3, 12⟩ 7 (by decide) (by decide)
      (by decide) (by decide)⟩

/-- C5 counterexample: `Component("C", 0, 0, 2, 2)` has the
margin-expanded integer box `(-2, -2, 4, 4)`.  On a 10×10 grid the
`add_component` loop stamps cell `(0, 0)` with `OBSTACLE_COST`, but the
`route()` numpy slice `[-2:4, -2:4]` normalises to the empty range
`[8:4, 8:4]` and stamps nothing, so the claimed equivalence fails for
boxes extending beyond the lower grid bounds. -/
theorem C5_counterexample :
    (compC5.addMargin (Dy.ofInt MARGIN)).int_bbox = ⟨-2, -2, 4, 4⟩ ∧
      Grid.addBoxClipped 10 10 Grid.zero ⟨-2, -2, 4, 4⟩ OBSTACLE_COST 0 0 =
        100000 ∧
      Grid.addSlice 10 10 Grid.zero ⟨-2, -2, 4, 4⟩ OBSTACLE_COST 0 0 = 0 := by
  refine ⟨by decide, ?_, ?_⟩ <;> decide

/-! ## C4: the pin-escape stub -/

theorem Point.add_x (a b : Point) : (a + b).x = a.x + b.x := rfl

theorem Point.add_y (a b : Point) : (a + b).y = a.y + b.y := rfl

theorem containsB_iff (bb : IBox) (p : Point) :
    bb.containsB p = true ↔
      bb.xmin ≤ p.x ∧ p.x < bb.xmax ∧ bb.ymin ≤ p.y ∧ p.y < bb.ymax := by
  simp [IBox.containsB, and_assoc]

/-- The stub walk in direction `(-1, 0)`: exits at `x = xmin - 1`
after `(pin.x - xmin) + 1` steps. -/
theorem escWalk_left (bb : IBox) :
    ∀ (fuel : Nat) (p : Point), bb.containsB p = true →
      (p.x - bb.xmin).toNat + 1 ≤ fuel →
      ∃ l, escWalk fuel bb ⟨-1, 0⟩ p = some (l, ⟨bb.xmin - 1, p.y⟩) ∧
        l.length = (p.x - bb.xmin).toNat + 1 := by
  intro fuel
  induction fuel with
  | zero => intro p hp hf; omega
  | succ n ih =>
    intro p hp hf
    rw [containsB_iff] at hp
    simp only [escWalk]
    by_cases hin : bb.containsB (p + ⟨-1, 0⟩) = true
    · rw [if_pos hin]
      have hin2 := (containsB_iff _ _).mp hin
      simp only [Point.add_x, Point.add_y] at hin2
      obtain ⟨l, hl, hlen⟩ := ih (p + ⟨-1, 0⟩) hin (by
        simp only [Point.add_x]
        omega)
      rw [hl]
      refine ⟨(p + ⟨-1, 0⟩) :: l, ?_, ?_⟩
      · simp only [Point.add_y]
        norm_num
      · simp only [List.length_cons, hlen, Point.add_x]
        omega
    · rw [if_neg hin]
      rw [containsB_iff] at hin
      simp only [Point.add_x, Point.add_y] at hin
      have hx : p.x = bb.xmin := by omega
      refine ⟨[p + ⟨-1, 0⟩], ?_, by simp; omega⟩
      have heq : p + (⟨-1, 0⟩ : Point) = ⟨bb.xmin - 1, p.y⟩ := by
        have hadd : p + (⟨-1, 0⟩ : Point) = ⟨p.x + -1, p.y + 0⟩ := rfl
        rw [hadd]
        simp only [Point.mk.injEq]
        omega
      rw [heq]

/-- The stub walk in direction `(1, 0)`: exits at `x = xmax` after
`xmax - pin.x` steps. -/
theorem escWalk_right (bb : IBox) :
    ∀ (fuel : Nat) (p : Point), bb.containsB p = true →
      (bb.xmax - p.x).toNat ≤ fuel →
      ∃ l, escWalk fuel bb ⟨1, 0⟩ p = some (l, ⟨bb.xmax, p.y⟩) ∧
        l.length = (bb.xmax - p.x).toNat := by
  intro fuel
  induction fuel with
  | zero => intro p hp hf; rw [containsB_iff] at hp; omega
  | succ n ih =>
    intro p hp hf
    rw [containsB_iff] at hp
    simp only [escWalk]
    by_cases hin : bb.containsB (p + ⟨1, 0⟩) = true
    · rw [if_pos hin]
      have hin2 := (containsB_iff _ _).mp hin
      simp only [Point.add_x, Point.add_y] at hin2
      obtain ⟨l, hl, hlen⟩ := ih (p + ⟨1, 0⟩) hin (by
        simp only [Point.add_x]
        omega)
      rw [hl]
      refine ⟨(p + ⟨1, 0⟩) :: l, ?_, ?_⟩
      · simp only [Point.add_y]
        norm_num
      · simp only [List.length_cons, hlen, Point.add_x]
        omega
    · rw [if_neg hin]
      rw [containsB_iff] at hin
      simp only [Point.add_x, Point.add_y] at hin
      have hx : p.x = bb.xmax - 1 := by omega
      refine ⟨[p + ⟨1, 0⟩], ?_, by simp; omega⟩
      have heq : p + (⟨1, 0⟩ : Point) = ⟨bb.xmax, p.y⟩ := by
        have hadd : p + (⟨1, 0⟩ : Point) = ⟨p.x + 1, p.y + 0⟩ := rfl
        rw [hadd]
        simp only [Point.mk.injEq]
        omega
      rw [heq]

/-- The stub walk in direction `(0, -1)`: exits at `y = ymin - 1`
after `(pin.y - ymin) + 1` steps. -/
theorem escWalk_down (bb : IBox) :
    ∀ (fuel : Nat) (p : Point), bb.containsB p = true →
      (p.y - bb.ymin).toNat + 1 ≤ fuel →
      ∃ l, escWalk fuel bb ⟨0, -1⟩ p = some (l, ⟨p.x, bb.ymin - 1⟩) ∧
        l.length = (p.y - bb.ymin).toNat + 1 := by
  intro fuel
  induction fuel with
  | zero => intro p hp hf; omega
  | succ n ih =>
    intro p hp hf
    rw [containsB_iff] at hp
    simp only [escWalk]
    by_cases hin : bb.containsB (p + ⟨0, -1⟩) = true
    · rw [if_pos hin]
      have hin2 := (containsB_iff _ _).mp hin
      simp only [Point.add_x, Point.add_y] at hin2
      obtain ⟨l, hl, hlen⟩ := ih (p + ⟨0, -1⟩) hin (by
        simp only [Point.add_y]
        omega)
      rw [hl]
      refine ⟨(p + ⟨0, -1⟩) :: l, ?_, ?_⟩
      · simp only [Point.add_x]
        norm_num
      · simp only [List.length_cons, hlen, Point.add_y]
        omega
    · rw [if_neg hin]
      rw [containsB_iff] at hin
      simp only [Point.add_x, Point.add_y] at hin
      have hy : p.y = bb.ymin := by omega
      refine ⟨[p + ⟨0, -1⟩], ?_, by simp; omega⟩
      have heq : p + (⟨0, -1⟩ : Point) = ⟨p.x, bb.ymin - 1⟩ := by
        have hadd : p + (⟨0, -1⟩ : Point) = ⟨p.x + 0, p.y + -1⟩ := rfl
        rw [hadd]
        simp only [Point.mk.injEq]
        omega
      rw [heq]

/-- The stub walk in direction `(0, 1)`: exits at `y = ymax` after
`ymax - pin.y` steps. -/
theorem escWalk_up (bb : IBox) :
    ∀ (fuel : Nat) (p : Point), bb.containsB p = true →
      (bb.ymax - p.y).toNat ≤ fuel →
      ∃ l, escWalk fuel bb ⟨0, 1⟩ p = some (l, ⟨p.x, bb.ymax⟩) ∧
        l.length = (bb.ymax - p.y).toNat := by
  intro fuel
  induction fuel with
  | zero => intro p hp hf; rw [containsB_iff] at hp; omega
  | succ n ih =>
    intro p hp hf
    rw [containsB_iff] at hp
    simp only [escWalk]
    by_cases hin : bb.containsB (p + ⟨0, 1⟩) = true
    · rw [if_pos hin]
      have hin2 := (containsB_iff _ _).mp hin
      simp only [Point.add_x, Point.add_y] at hin2
      obtain ⟨l, hl, hlen⟩ := ih (p + ⟨0, 1⟩) hin (by
        simp only [Point.add_y]
        omega)
      rw [hl]
      refine ⟨(p + ⟨0, 1⟩) :: l, ?_, ?_⟩
      · simp only [Point.add_x]
        norm_num
      · simp only [List.length_cons, hlen, Point.add_y]
        omega
    · rw [if_neg hin]
      rw [containsB_iff] at hin
      simp only [Point.add_x, Point.add_y] at hin
      have hy : p.y = bb.ymax - 1 := by omega
      refine ⟨[p + ⟨0, 1⟩], ?_, by simp; omega⟩
      have heq : p + (⟨0, 1⟩ : Point) = ⟨p.x, bb.ymax⟩ := by
        have hadd : p + (⟨0, 1⟩ : Point) = ⟨p.x + 0, p.y + 1⟩ := rfl
        rw [hadd]
        simp only [Point.mk.injEq]
        omega
      rw [heq]

/-- `escapeDir` always selects one of the four unit directions. -/
theorem escapeDir_cases (bb : IBox) (pin : Point) :
    ∃ d, escapeDir bb pin = some d ∧
      (d = ⟨-1, 0⟩ ∨ d = ⟨1, 0⟩ ∨ d = ⟨0, -1⟩ ∨ d = ⟨0, 1⟩) := by
  simp only [escapeDir, pyMinBy, pyMinByLoop]
  split_ifs <;> refine ⟨_, rfl, ?_⟩ <;> simp

/-- Unfolding `pin_escape` when the head component's box contains the
pin. -/
theorem pin_escape_cons_pos (comp : Component) (rest : List Component)
    (pin : Point)
    (h : ((comp.addMargin (Dy.ofInt MARGIN)).int_bbox).containsB pin = true) :
    pin_escape (comp :: rest) pin =
      (match escapeDir ((comp.addMargin (Dy.ofInt MARGIN)).int_bbox) pin with
       | none => none
       | some d =>
         match escWalk (escFuel ((comp.addMargin (Dy.ofInt MARGIN)).int_bbox))
             ((comp.addMargin (Dy.ofInt MARGIN)).int_bbox) d pin with
         | none => none
         | some (l, e) => some (pin :: l, e)) := by
  simp only [pin_escape, h, if_true]

/-- C4 (amended): for a pin inside the first containing component's
margin-expanded box, `_pin_escape` terminates (the fuelled walk
succeeds within `escFuel`), the exit point lies strictly outside that
box, and the stub's move count (`l.length`, the points appended beyond
the pin itself) equals the nearest-face distance for the positive
directions (right/up) but the face distance PLUS ONE for the negative
directions (left/down) — not always the face distance, as the original
claim stated; for a pin inside no component's margin the function
returns an empty stub and the pin unchanged. -/
theorem C4_escape_stub :
    (∀ (comp : Component) (rest : List Component) (pin : Point),
      ((comp.addMargin (Dy.ofInt MARGIN)).int_bbox).containsB pin = true →
      ∃ l e d,
        escapeDir ((comp.addMargin (Dy.ofInt MARGIN)).int_bbox) pin = some d ∧
        pin_escape (comp :: rest) pin = some (pin :: l, e) ∧
        ((comp.addMargin (Dy.ofInt MARGIN)).int_bbox).containsB e = false ∧
        (d = ⟨-1, 0⟩ →
          l.length =
            (pin.x - ((comp.addMargin (Dy.ofInt MARGIN)).int_bbox).xmin).toNat
              + 1) ∧
        (d = ⟨1, 0⟩ →
          l.length =
            (((comp.addMargin (Dy.ofInt MARGIN)).int_bbox).xmax
              - pin.x).toNat) ∧
        (d = ⟨0, -1⟩ →
          l.length =
            (pin.y - ((comp.addMargin (Dy.ofInt MARGIN)).int_bbox).ymin).toNat
              + 1) ∧
        (d = ⟨0, 1⟩ →
          l.length =
            (((comp.addMargin (Dy.ofInt MARGIN)).int_bbox).ymax
              - pin.y).toNat)) ∧
    (∀ (comps : List Component) (pin : Point),
      (∀ c ∈ comps,
        ((c.addMargin (Dy.ofInt MARGIN)).int_bbox).containsB pin = false) →
      pin_escape comps pin = some ([], pin)) := by
  constructor
  · intro comp rest pin h
    obtain ⟨d, hd, hcases⟩ :=
      escapeDir_cases ((comp.addMargin (Dy.ofInt MARGIN)).int_bbox) pin
    have hbounds := (containsB_iff _ _).mp h
    rcases hcases with hL | hR | hD | hU
    · subst hL
      obtain ⟨l, hw, hlen⟩ :=
        escWalk_left ((comp.addMargin (Dy.ofInt MARGIN)).int_bbox)
          (escFuel ((comp.addMargin (Dy.ofInt MARGIN)).int_bbox)) pin h
          (by unfold escFuel; omega)
      refine ⟨l, ⟨((comp.addMargin (Dy.ofInt MARGIN)).int_bbox).xmin - 1, pin.y⟩, _, hd, ?_, ?_, fun _ => hlen, ?_, ?_, ?_⟩
      · rw [pin_escape_cons_pos comp rest pin h, hd]
        simp only [hw]
      · rw [Bool.eq_false_iff, Ne, containsB_iff]
        intro hcontra
        simp only at hcontra
        omega
      all_goals intro hbad; exact absurd hbad.symm (by decide)
    · subst hR
      obtain ⟨l, hw, hlen⟩ :=
        escWalk_right ((comp.addMargin (Dy.ofInt MARGIN)).int_bbox)
          (escFuel ((comp.addMargin (Dy.ofInt MARGIN)).int_bbox)) pin h
          (by unfold escFuel; omega)
      refine ⟨l, ⟨((comp.addMargin (Dy.ofInt MARGIN)).int_bbox).xmax, pin.y⟩, _, hd, ?_, ?_, ?_, fun _ => hlen, ?_, ?_⟩
      · rw [pin_escape_cons_pos comp rest pin h, hd]
        simp only [hw]
      · rw [Bool.eq_false_iff, Ne, containsB_iff]
        intro hcontra
        simp only at hcontra
        omega
      all_goals intro hbad; exact absurd hbad.symm (by decide)
    · subst hD
      obtain ⟨l, hw, hlen⟩ :=
        escWalk_down ((comp.addMargin (Dy.ofInt MARGIN)).int_bbox)
          (escFuel ((comp.addMargin (Dy.ofInt MARGIN)).int_bbox)) pin h
          (by unfold escFuel; omega)
      refine ⟨l, ⟨pin.x, ((comp.addMargin (Dy.ofInt MARGIN)).int_bbox).ymin - 1⟩, _, hd, ?_, ?_, ?_, ?_, fun _ => hlen, ?_⟩
      · rw [pin_escape_cons_pos comp rest pin h, hd]
        simp only [hw]
      · rw [Bool.eq_false_iff, Ne, containsB_iff]
        intro hcontra
        simp only at hcontra
        omega
      all_goals intro hbad; exact absurd hbad.symm (by decide)
    · subst hU
      obtain ⟨l, hw, hlen⟩ :=
        escWalk_up ((comp.addMargin (Dy.ofInt MARGIN)).int_bbox)
          (escFuel ((comp.addMargin (Dy.ofInt MARGIN)).int_bbox)) pin h
          (by unfold escFuel; omega)
      refine ⟨l, ⟨pin.x, ((comp.addMargin (Dy.ofInt MARGIN)).int_bbox).ymax⟩, _, hd, ?_, ?_, ?_, ?_, ?_, fun _ => hlen⟩
      · rw [pin_escape_cons_pos comp rest pin h, hd]
        simp only [hw]
      · rw [Bool.eq_false_iff, Ne, containsB_iff]
        intro hcontra
        simp only at hcontra
        omega
      all_goals intro hbad; exact absurd hbad.symm (by decide)
  · intro comps
    induction comps with
    | nil => intro pin _; rfl
    | cons c rest ih =>
      intro pin hall
      have hc := hall c (by simp)
      simp only [pin_escape, hc]
      exact ih pin (fun c2 hc2 => hall c2 (by simp [hc2]))

/-- C4 counterexample: pin `(4, 6)` sits inside `compC4`'s margin box
`(3, 3, 9, 9)` with face distances left 1 (the minimum), right 5,
down 3, up 3.  The escape stub is `[(4,6), (3,6), (2,6)]` — two moves,
three points — so the stub's length is NOT the nearest-face distance 1
(the walk must step past the face to leave the half-open box), refuting
the claimed equality for the negative directions. -/
theorem C4_counterexample :
    (compC4.addMargin (Dy.ofInt MARGIN)).int_bbox = ⟨3, 3, 9, 9⟩ ∧
      escapeDir ⟨3, 3, 9, 9⟩ ⟨4, 6⟩ = some ⟨-1, 0⟩ ∧
      (((4 : Int) - 3).natAbs : Int) = 1 ∧
      pin_escape [compC4] ⟨4, 6⟩ =
        some ([⟨4, 6⟩, ⟨3, 6⟩, ⟨2, 6⟩], ⟨2, 6⟩) ∧
      ([(⟨4, 6⟩ : Point), ⟨3, 6⟩, ⟨2, 6⟩].length - 1 ≠ 1) := by
  refine ⟨by decide, by decide, by decide, by decide, by decide⟩

/-- C4 witness: the amended characterisation applied to `compC4` and
pin `(4, 6)` (contained case) and to pin `(100, 100)` (uncontained
case). -/
theorem C4_escape_stub_witness :
    ((compC4.addMargin (Dy.ofInt MARGIN)).int_bbox).containsB ⟨4, 6⟩ = true ∧
      (∃ l e d,
        escapeDir ((compC4.addMargin (Dy.ofInt MARGIN)).int_bbox) ⟨4, 6⟩ =
          some d ∧
        pin_escape [compC4] ⟨4, 6⟩ = some (⟨4, 6⟩ :: l, e) ∧
        ((compC4.addMargin (Dy.ofInt MARGIN)).int_bbox).containsB e = false ∧
        (d = ⟨-1, 0⟩ →
          l.length =
            ((4 : Int) -
              ((compC4.addMargin (Dy.ofInt MARGIN)).int_bbox).xmin).toNat
              + 1) ∧
        (d = ⟨1, 0⟩ →
          l.length =
            (((compC4.addMargin (Dy.ofInt MARGIN)).int_bbox).xmax
              - (4 : Int)).toNat) ∧
        (d = ⟨0, -1⟩ →
          l.length =
            ((6 : Int) -
              ((compC4.addMargin (Dy.ofInt MARGIN)).int_bbox).ymin).toNat
              + 1) ∧
        (d = ⟨0, 1⟩ →
          l.length =
            (((compC4.addMargin (Dy.ofInt MARGIN)).int_bbox).ymax
              - (6 : Int)).toNat)) ∧
      pin_escape [] ⟨100, 100⟩ = some ([], ⟨100, 100⟩) :=
  ⟨by decide, C4_escape_stub.1 compC4 [] ⟨4, 6⟩ (by decide),
    C4_escape_stub.2 [] ⟨100, 100⟩ (by simp)⟩

/-! ## C1: behaviour of the growth loop when A* fails -/

/-- C1 counterexample: in `cfgC1`, pin `(-2, 0)` is selected first
(distance 2 to the seed `(0, 0)` vs distance 3 for `(0, 3)`); it has
no in-bounds neighbour, so its A* search exhausts the queue and
returns `None`, and the source's `else: break` then abandons the WHOLE
growth loop: the net's committed path is empty even though the
remaining pin `(0, 3)` was connectable (its A* search from the same
state succeeds).  This refutes "only that pin is abandoned … the
growth loop continues attempting to connect every remaining
unconnected pin". -/
theorem C1_counterexample :
    (route cfgC1 20).map (fun s => s.table) = .ok [(0, [])] ∧
      (astar_multi_target 5 5 Grid.zero HGrid.zero ⟨0, 3⟩ [⟨0, 0⟩]
          Dy.half 60).map (fun r => r.map List.length) = .ok (some 4) := by
  constructor
  · decide
  · decide

/-- C1 (amended): when the A* search for the selected pin returns
`None`, the growth loop stops at once — the selected pin AND every
remaining unconnected pin are left unconnected for this iteration, the
net keeps only the path built so far, and no exception is raised. -/
theorem C1_growth_break (w h : Int) (comps : List Component) (occ : Grid)
    (hist : HGrid) (cm : Dy) (afuel gfuel : Nat) (p best : Point)
    (rest routed full : List Point) (d : Int) (ep : List Point)
    (escd : Point)
    (hsel : selectPin routed p rest = .ok (d, best))
    (hesc : pin_escape comps best = some (ep, escd))
    (hast : astar_multi_target w h occ hist escd routed cm afuel =
      .ok none) :
    growLoop w h comps occ hist cm afuel (gfuel + 1) (p :: rest) routed full =
      .ok (full, routed, p :: rest) := by
  simp only [growLoop, hsel, Bind.bind, Except.bind, hesc, hast]

/-- C1 witness: the amended break behaviour at the `cfgC1` search
state. -/
theorem C1_growth_break_witness :
    selectPin [⟨0, 0⟩] ⟨-2, 0⟩ [⟨0, 3⟩] = .ok (2, ⟨-2, 0⟩) ∧
      pin_escape [] ⟨-2, 0⟩ = some ([], ⟨-2, 0⟩) ∧
      astar_multi_target 5 5 Grid.zero HGrid.zero ⟨-2, 0⟩ [⟨0, 0⟩]
        Dy.half 20 = .ok none ∧
      growLoop 5 5 [] Grid.zero HGrid.zero Dy.half 20 2
        [⟨-2, 0⟩, ⟨0, 3⟩] [⟨0, 0⟩] [] = .ok ([], [⟨0, 0⟩], [⟨-2, 0⟩, ⟨0, 3⟩]) :=
  ⟨by decide, by decide, by decide,
    C1_growth_break 5 5 [] Grid.zero HGrid.zero Dy.half 20 1 ⟨-2, 0⟩ ⟨-2, 0⟩
      [⟨0, 3⟩] [⟨0, 0⟩] [] 2 [] ⟨-2, 0⟩ (by decide) (by decide) (by decide)⟩

/-! ## C2: what the overlap detector actually flags -/

/-- C2 counterexample: `cfgC2` has a SINGLE net, yet every iteration
flags cell `(1, 4)`: the net's first pin `(3, 4)` escapes through the
component margin to `(1, 4)`, the stub's exit point doubles as the A*
docking target, the committed path `[(3,4), (2,4), (1,4), (1,4)]`
visits `(1, 4)` twice, and two wire stamps from ONE net exceed the
`> 100` threshold.  So "flagged iff at least two distinct nets cover
the cell" is false. -/
theorem C2_counterexample :
    (route cfgC2 20).map (fun s => (s.lastOverlaps, s.table)) =
      .ok ([(1, 4)], [(0, [⟨3, 4⟩, ⟨2, 4⟩, ⟨1, 4⟩, ⟨1, 4⟩])]) ∧
      cfgC2.nets.length = 1 ∧
      ([(⟨3, 4⟩ : Point), ⟨2, 4⟩, ⟨1, 4⟩, ⟨1, 4⟩].count ⟨1, 4⟩) = 2 := by
  refine ⟨by decide, by decide, by decide⟩

/-- C2 (amended): the overlap scan flags exactly the in-bounds cells
whose occupancy residue modulo `OBSTACLE_COST` exceeds one `WIRE_COST`
unit — i.e. at least two additive wire stamps, counted WITH
multiplicity of cell occurrences within each committed path, which a
single net can produce on its own (see the counterexample); the
"≥ 2 distinct nets" reading is what fails. -/
theorem C2_overlap_scan (w h : Int) (occ : Grid) (x y : Int) :
    (x, y) ∈ overlapScan w h occ ↔
      0 ≤ x ∧ x < w ∧ 0 ≤ y ∧ y < h ∧
        occ x y % OBSTACLE_COST > WIRE_COST := by
  simp only [overlapScan, List.mem_bind, List.mem_filterMap, List.mem_range]
  constructor
  · rintro ⟨x2, hx2, y2, hy2, hcond⟩
    by_cases hp : occ (Int.ofNat x2) (Int.ofNat y2) % OBSTACLE_COST > WIRE_COST
    · rw [if_pos hp] at hcond
      obtain ⟨hx, hy⟩ := Prod.mk.injEq .. ▸ Option.some.injEq .. ▸ hcond
      subst hx
      subst hy
      simp only [Int.ofNat_eq_natCast] at hp ⊢
      refine ⟨by omega, by omega, by omega, by omega, hp⟩
    · rw [if_neg hp] at hcond
      exact absurd hcond (by simp)
  · rintro ⟨hx0, hxw, hy0, hyh, hp⟩
    refine ⟨x.toNat, by omega, y.toNat, by omega, ?_⟩
    have hxx : Int.ofNat x.toNat = x := by
      rw [Int.ofNat_eq_natCast]
      omega
    have hyy : Int.ofNat y.toNat = y := by
      rw [Int.ofNat_eq_natCast]
      omega
    rw [hxx, hyy, if_pos hp]

/-! ## Stamping algebra (shared helpers for C7) -/

/-- `Grid.addAt` succeeds exactly when both numpy indices normalise. -/
theorem addAt_isSome (w h : Int) (g : Grid) (p : Point) (c : Int) :
    (Grid.addAt w h g p c).isSome = ptOkB w h p := by
  unfold Grid.addAt ptOkB
  cases npIndex w p.x <;> cases npIndex h p.y <;> rfl

/-- Pointwise effect of a successful `Grid.addAt`: the stamped cell
(after numpy normalisation) gains `c`, every other cell is unchanged. -/
theorem addAt_eval (w h : Int) (g : Grid) (p : Point) (c : Int) (g2 : Grid)
    (hg : Grid.addAt w h g p c = some g2) (a b : Int) :
    g2 a b = g a b + (if stampsTo w h p a b then c else 0) := by
  unfold Grid.addAt at hg
  cases hi : npIndex w p.x with
  | none => rw [hi] at hg; exact Option.noConfusion hg
  | some i =>
    cases hj : npIndex h p.y with
    | none => rw [hi, hj] at hg; exact Option.noConfusion hg
    | some j =>
      rw [hi, hj] at hg
      have hg2 : (some (fun a b => if a = i ∧ b = j then g a b + c else g a b) :
          Option Grid) = some g2 := hg
      injection hg2 with hg3
      subst hg3
      have hcond : stampsTo w h p a b = true ↔ (a = i ∧ b = j) := by
        unfold stampsTo
        rw [hi, hj]
        simp only [Bool.and_eq_true, beq_iff_eq, Option.some.injEq]
        constructor <;> intro hx <;> exact ⟨hx.1.symm, hx.2.symm⟩
      by_cases hst : stampsTo w h p a b = true
      · rw [if_pos hst]
        show (if a = i ∧ b = j then g a b + c else g a b) = g a b + c
        rw [if_pos (hcond.mp hst)]
      · rw [if_neg hst, add_zero]
        show (if a = i ∧ b = j then g a b + c else g a b) = g a b
        rw [if_neg (fun hc => hst (hcond.mpr hc))]

/-- Pointwise effect of a successful `stampPath`: each cell gains `c`
times the number of path stamps that land on it. -/
theorem stampPath_eval (w h c : Int) :
    ∀ (path : List Point) (g g2 : Grid),
      stampPath w h g path c = .ok g2 →
      ∀ a b : Int, g2 a b = g a b + c * pathStampCount w h path a b := by
  intro path
  induction path with
  | nil =>
    intro g g2 hg a b
    simp only [stampPath, List.foldlM_nil] at hg
    cases hg
    simp [pathStampCount]
  | cons p rest ih =>
    intro g g2 hg a b
    simp only [stampPath, List.foldlM_cons] at hg
    cases hadd : Grid.addAt w h g p c with
    | none =>
      simp only [hadd, Bind.bind, Except.bind] at hg
      exact Except.noConfusion hg
    | some g3 =>
      simp only [hadd, Bind.bind, Except.bind] at hg
      have h3 := ih g3 g2 hg a b
      have h1 := addAt_eval w h g p c g3 hadd a b
      rw [h3, h1]
      unfold pathStampCount
      simp only [List.countP_cons]
      by_cases hst : stampsTo w h p a b = true
      · simp only [if_pos hst]
        push_cast
        ring
      · simp only [if_neg hst]
        push_cast
        ring

/-- `stampPath` succeeds whenever every path point normalises
(success is independent of the grid and the stamp amount). -/
theorem stampPath_ok (w h c : Int) :
    ∀ (path : List Point) (g : Grid), path.all (ptOkB w h) = true →
      ∃ g2, stampPath w h g path c = .ok g2 := by
  intro path
  induction path with
  | nil => intro g _; exact ⟨g, rfl⟩
  | cons p rest ih =>
    intro g hall
    simp only [List.all_cons, Bool.and_eq_true] at hall
    have hsome : (Grid.addAt w h g p c).isSome = true := by
      rw [addAt_isSome]; exact hall.1
    cases hadd : Grid.addAt w h g p c with
    | none => rw [hadd] at hsome; cases hsome
    | some g3 =>
      obtain ⟨g2, h2⟩ := ih g3 hall.2
      refine ⟨g2, ?_⟩
      simp only [stampPath, List.foldlM_cons, hadd, Bind.bind, Except.bind]
      exact h2

/-- A successful `stampPath` forces every path point to normalise. -/
theorem stampPath_all (w h c : Int) :
    ∀ (path : List Point) (g g2 : Grid),
      stampPath w h g path c = .ok g2 → path.all (ptOkB w h) = true := by
  intro path
  induction path with
  | nil => intro g g2 _; rfl
  | cons p rest ih =>
    intro g g2 hg
    simp only [stampPath, List.foldlM_cons] at hg
    cases hadd : Grid.addAt w h g p c with
    | none =>
      simp only [hadd, Bind.bind, Except.bind] at hg
      exact Except.noConfusion hg
    | some g3 =>
      simp only [hadd, Bind.bind, Except.bind] at hg
      simp only [List.all_cons, Bool.and_eq_true]
      refine ⟨?_, ih g3 g2 hg⟩
      have hs := addAt_isSome w h g p c
      rw [hadd] at hs
      rw [← hs]
      rfl

/-- Pointwise effect of a successful committed-path restamp fold. -/
theorem tableFold_eval (w h : Int) :
    ∀ (t : Table) (g g2 : Grid),
      t.foldlM (fun g e => stampPath w h g e.2 WIRE_COST) g = .ok g2 →
      ∀ a b : Int, g2 a b = g a b + WIRE_COST * tableStampCount w h t a b := by
  intro t
  induction t with
  | nil =>
    intro g g2 hg a b
    simp only [List.foldlM_nil] at hg
    cases hg
    simp [tableStampCount]
  | cons e rest ih =>
    intro g g2 hg a b
    simp only [List.foldlM_cons] at hg
    cases hsp : stampPath w h g e.2 WIRE_COST with
    | error err =>
      simp only [hsp, Bind.bind, Except.bind] at hg
      exact Except.noConfusion hg
    | ok g3 =>
      simp only [hsp, Bind.bind, Except.bind] at hg
      have h3 := ih g3 g2 hg a b
      have h1 := stampPath_eval w h WIRE_COST e.2 g g3 hsp a b
      rw [h3, h1]
      unfold tableStampCount
      simp only [List.map_cons, List.sum_cons]
      ring

/-- Pointwise reading of a successful iteration-start rebuild:
component obstacles plus `WIRE_COST` per wire stamp, per cell. -/
theorem rebuiltOcc_eval (w h : Int) (comps : List Component) (t : Table)
    (g2 : Grid) (hg : rebuiltOcc w h comps t = .ok g2) (a b : Int) :
    g2 a b = compOcc w h comps a b + WIRE_COST * tableStampCount w h t a b :=
  tableFold_eval w h t (compOcc w h comps) g2 hg a b

/-- The committed-path restamp fold succeeds whenever every committed
point normalises. -/
theorem tableFold_ok (w h : Int) :
    ∀ (t : Table) (g : Grid), t.all (fun e => e.2.all (ptOkB w h)) = true →
      ∃ g2, t.foldlM (fun g e => stampPath w h g e.2 WIRE_COST) g = .ok g2 := by
  intro t
  induction t with
  | nil => intro g _; exact ⟨g, rfl⟩
  | cons e rest ih =>
    intro g hall
    simp only [List.all_cons, Bool.and_eq_true] at hall
    obtain ⟨g3, h3⟩ := stampPath_ok w h WIRE_COST e.2 g hall.1
    obtain ⟨g2, h2⟩ := ih g3 hall.2
    refine ⟨g2, ?_⟩
    simp only [List.foldlM_cons, h3, Bind.bind, Except.bind]
    exact h2

/-- The rebuild succeeds whenever every committed point normalises. -/
theorem rebuiltOcc_ok (w h : Int) (comps : List Component) (t : Table)
    (hall : t.all (fun e => e.2.all (ptOkB w h)) = true) :
    ∃ g2, rebuiltOcc w h comps t = .ok g2 :=
  tableFold_ok w h t (compOcc w h comps) hall

/-- A `tableFind?` hit is a genuine entry of the table. -/
theorem tableFind?_mem (t : Table) (k : Nat) (v : List Point)
    (h : tableFind? t k = some v) : (k, v) ∈ t := by
  unfold tableFind? at h
  cases hf : t.find? (fun e => e.1 = k) with
  | none => simp only [hf] at h; exact Option.noConfusion h
  | some e =>
    simp only [hf, Option.some.injEq] at h
    have hm := List.mem_of_find?_eq_some hf
    have hp := List.find?_some hf
    simp only [decide_eq_true_eq] at hp
    subst h
    rw [← hp]
    exact hm

/-- `tableStampCount` over a cons. -/
theorem tableStampCount_cons (w h : Int) (e : Nat × List Point) (rest : Table)
    (a b : Int) :
    tableStampCount w h (e :: rest) a b =
      pathStampCount w h e.2 a b + tableStampCount w h rest a b := by
  unfold tableStampCount
  simp [List.map_cons, List.sum_cons]

/-- Omitting the entry of a present key removes exactly that entry's
stamps from the table total (keys assumed distinct, as `dict` keys are). -/
theorem tableStampCount_erase (w h : Int) :
    ∀ (t : Table) (k : Nat) (old : List Point),
      (t.map (fun e => e.1)).Nodup →
      tableFind? t k = some old →
      ∀ a b : Int,
        tableStampCount w h (tableErase t k) a b =
          tableStampCount w h t a b - pathStampCount w h old a b := by
  intro t
  induction t with
  | nil => intro k old _ hf; exact absurd hf (by simp [tableFind?])
  | cons e rest ih =>
    intro k old hnd hf a b
    simp only [List.map_cons, List.nodup_cons] at hnd
    by_cases hek : e.1 = k
    · have hf2 : old = e.2 := by
        unfold tableFind? at hf
        rw [List.find?_cons_of_pos _ (by simpa using hek)] at hf
        simp only [Option.some.injEq] at hf
        exact hf.symm
      subst hf2
      have hrest : ∀ e2 ∈ rest, e2.1 ≠ k := by
        intro e2 he2 hk
        exact hnd.1 (List.mem_map.mpr ⟨e2, he2, by rw [hk, hek]⟩)
      have herase : tableErase (e :: rest) k = rest := by
        unfold tableErase
        rw [List.filter_cons, if_neg (by simp [hek]), List.filter_eq_self]
        intro x hx
        simpa [bne_iff_ne] using hrest x hx
      rw [herase, tableStampCount_cons]
      omega
    · have hf2 : tableFind? rest k = some old := by
        unfold tableFind? at hf ⊢
        rw [List.find?_cons_of_neg _ (by simpa using hek)] at hf
        exact hf
      have hih := ih k old hnd.2 hf2 a b
      have hcons : tableErase (e :: rest) k = e :: tableErase rest k := by
        unfold tableErase
        rw [List.filter_cons, if_pos (by simpa [bne_iff_ne] using hek)]
      rw [hcons, tableStampCount_cons, tableStampCount_cons, hih]
      ring

/-! ## C7: rip-up symmetry -/

/-- C7 counterexample: with committed table `c7table` and nets
`c7nets` on `cfgC2`'s grid, at net 1's turn (after net 0 was
processed and committed a path different from its previously committed
one) the occupancy right after net 1's self rip-up holds 100000 at
cell (3,5), while the iteration-start rebuild with net 1's path
omitted holds 100100 there (net 0's superseded path is still stamped
in the iteration-start table): the two sides of the claimed equation
differ. -/
theorem C7_counterexample :
    c7vals = .ok (100000, 100100) ∧ (100000 : Int) ≠ 100100 :=
  ⟨by decide, by decide⟩

/-- C7 (amended): within an iteration, the occupancy immediately after
a net's self rip-up equals the rebuild (zeroed grid, component
restamp, wire restamp) over the table as currently committed — which,
after earlier nets of the same iteration were processed, contains
their freshly committed paths — with the ripped net's entry omitted.
Hypotheses: the net has a committed path, table keys are distinct (as
`dict` keys are), and every committed cell normalises under numpy
element indexing. -/
theorem C7_rip_equals_rebuild_minus (w h : Int) (comps : List Component)
    (t : Table) (k : Nat) (old : List Point)
    (hfind : tableFind? t k = some old)
    (hnodup : (t.map (fun e => e.1)).Nodup)
    (hok : t.all (fun e => e.2.all (ptOkB w h)) = true) :
    ∃ occ occ2, rebuiltOcc w h comps t = .ok occ ∧
      ripOwn w h t k occ = .ok occ2 ∧
      rebuiltOcc w h comps (tableErase t k) = .ok occ2 := by
  obtain ⟨occ, hocc⟩ := rebuiltOcc_ok w h comps t hok
  have hmem := tableFind?_mem t k old hfind
  have holdok : old.all (ptOkB w h) = true := by
    have h1 := List.all_eq_true.mp hok (k, old) hmem
    simpa using h1
  obtain ⟨occ2, hrip⟩ := stampPath_ok w h (-WIRE_COST) old occ holdok
  have heraseok : (tableErase t k).all (fun e => e.2.all (ptOkB w h)) = true := by
    rw [List.all_eq_true] at hok ⊢
    intro e he
    exact hok e (List.mem_of_mem_filter he)
  obtain ⟨occ3, hocc3⟩ := rebuiltOcc_ok w h comps (tableErase t k) heraseok
  have heq : occ2 = occ3 := by
    funext a b
    have h1 := rebuiltOcc_eval w h comps t occ hocc a b
    have h2 := stampPath_eval w h (-WIRE_COST) old occ occ2 hrip a b
    have h3 := rebuiltOcc_eval w h comps (tableErase t k) occ3 hocc3 a b
    have h4 := tableStampCount_erase w h t k old hnodup hfind a b
    rw [h2, h1, h3, h4]
    ring
  refine ⟨occ, occ2, hocc, ?_, ?_⟩
  · unfold ripOwn
    rw [hfind]
    exact hrip
  · rw [← heq] at hocc3
    exact hocc3

/-- Witness for the amended C7 at the concrete two-net table `c7wt`. -/
theorem C7_rip_equals_rebuild_minus_witness :
    ∃ occ occ2, rebuiltOcc 5 5 [] c7wt = .ok occ ∧
      ripOwn 5 5 c7wt 1 occ = .ok occ2 ∧
      rebuiltOcc 5 5 [] (tableErase c7wt 1) = .ok occ2 :=
  C7_rip_equals_rebuild_minus 5 5 [] c7wt 1 [⟨2, 2⟩, ⟨2, 3⟩]
    (by decide) (by decide) (by decide)

/-! ## Entry-array and heap invariants (shared helpers for C8) -/

/-- `setD` preserves a slotwise invariant when the new item satisfies it. -/
theorem arrInv_setD (P : Entry → Prop) (a : Array Entry) (v : Entry)
    (pos : Nat) (hP : arrInv P a) (hv : P v) : arrInv P (a.setD pos v) := by
  intro i
  rw [Array.getD_eq_get?]
  unfold Array.setD
  split
  · rename_i hpos
    by_cases hip : pos = i
    · subst hip
      rw [Array.getElem?_set_eq]
      exact hv
    · rw [Array.getElem?_set_ne _ _ _ (by simpa using hip)]
      have h1 := hP i
      rwa [Array.getD_eq_get?] at h1
  · have h1 := hP i
    rwa [Array.getD_eq_get?] at h1

/-- `push` preserves a slotwise invariant when the new item satisfies it. -/
theorem arrInv_push (P : Entry → Prop) (a : Array Entry) (v : Entry)
    (hP : arrInv P a) (hv : P v) : arrInv P (a.push v) := by
  intro i
  rw [Array.getD_eq_get?, Array.getElem?_push]
  split
  · exact hv
  · have h1 := hP i
    rwa [Array.getD_eq_get?] at h1

/-- `pop` preserves a slotwise invariant when `default` satisfies it. -/
theorem arrInv_pop (P : Entry → Prop) (a : Array Entry)
    (hd : P default) (hP : arrInv P a) : arrInv P a.pop := by
  intro i
  rw [Array.getD_eq_get?]
  by_cases hi : i < a.pop.size
  · rw [Array.getElem?_lt _ hi]
    simp only [Array.getElem_pop, Option.getD_some]
    have h1 := hP i
    rw [Array.getD_eq_get?,
      Array.getElem?_lt _ (Nat.lt_of_lt_of_le (a.size_pop ▸ hi) (Nat.sub_le _ _)),
      Option.getD_some] at h1
    exact h1
  · rw [Array.getElem?_ge _ (Nat.le_of_not_lt hi)]
    exact hd

/-- The sift-down loop of `heapq` preserves a slotwise invariant. -/
theorem arrInv_siftdownLoop (P : Entry → Prop) (newitem : Entry)
    (startpos : Nat) (hni : P newitem) :
    ∀ (fuel : Nat) (a : Array Entry) (pos : Nat), arrInv P a →
      arrInv P (siftdownLoop newitem startpos fuel a pos) := by
  intro fuel
  induction fuel with
  | zero => intro a pos hP; exact arrInv_setD P a newitem pos hP hni
  | succ n ih =>
    intro a pos hP
    simp only [siftdownLoop]
    split
    · split
      · exact ih _ _ (arrInv_setD P a _ pos hP (hP ((pos - 1) / 2)))
      · exact arrInv_setD P a newitem pos hP hni
    · exact arrInv_setD P a newitem pos hP hni

/-- The child-promotion loop of `heapq._siftup` preserves a slotwise
invariant. -/
theorem arrInv_siftupLoop (P : Entry → Prop) (endpos : Nat)
    (newitem : Entry) (startpos : Nat) (hni : P newitem) :
    ∀ (fuel : Nat) (a : Array Entry) (pos : Nat), arrInv P a →
      arrInv P (siftupLoop endpos newitem startpos fuel a pos) := by
  intro fuel
  induction fuel with
  | zero =>
    intro a pos hP
    exact arrInv_siftdownLoop P newitem startpos hni _ _ _
      (arrInv_setD P a newitem pos hP hni)
  | succ n ih =>
    intro a pos hP
    simp only [siftupLoop]
    split
    · split
      · exact ih _ _ (arrInv_setD P a _ pos hP (hP (2 * pos + 2)))
      · exact ih _ _ (arrInv_setD P a _ pos hP (hP (2 * pos + 1)))
    · exact arrInv_siftdownLoop P newitem startpos hni _ _ _
        (arrInv_setD P a newitem pos hP hni)

/-- `heapq._siftup` preserves a slotwise invariant. -/
theorem arrInv_siftup (P : Entry → Prop) (a : Array Entry) (pos : Nat)
    (hP : arrInv P a) : arrInv P (siftup a pos) :=
  arrInv_siftupLoop P a.size _ pos (hP pos) _ a pos hP

/-- `heappush` preserves a slotwise invariant when the pushed item
satisfies it. -/
theorem arrInv_heappush (P : Entry → Prop) (a : Array Entry)
    (item : Entry) (hP : arrInv P a) (hi : P item) :
    arrInv P (heappush a item) :=
  arrInv_siftdownLoop P item 0 hi _ _ _ (arrInv_push P a item hP hi)

/-- `heappop` returns an entry of the heap and a heap with the same
slotwise invariant. -/
theorem heappop_inv (P : Entry → Prop) (a : Array Entry)
    (hd : P default) (hP : arrInv P a) :
    P (heappop a).1 ∧ arrInv P (heappop a).2 := by
  unfold heappop
  simp only []
  split
  · exact ⟨hP (a.size - 1), arrInv_pop P a hd hP⟩
  · refine ⟨arrInv_pop P a hd hP 0, ?_⟩
    exact arrInv_siftup P _ 0
      (arrInv_setD P a.pop (a.getD (a.size - 1) default) 0
        (arrInv_pop P a hd hP) (hP (a.size - 1)))

/-! ## A* in-bounds invariants (shared helpers for C8) -/

/-- Inserting a `P`-value preserves the map invariant. -/
theorem mapInv_insert {α : Type} (P : α → Prop) (m : KeyMap α)
    (hm : mapInv P m) (k : Point × Point) (v : α) (hv : P v) :
    mapInv P (m.insert k v) := by
  intro q u hfind
  rw [Batteries.RBMap.find?_insert] at hfind
  split at hfind
  · cases hfind; exact hv
  · exact hm q u hfind

/-- Python `min` of a non-empty int list succeeds. -/
theorem pyMinInt_ok (l : List Int) (h : l ≠ []) : ∃ x, pyMinInt l = .ok x := by
  cases l with
  | nil => exact absurd rfl h
  | cons x xs => exact ⟨xs.foldl min x, rfl⟩

/-- Every `_get_neighbors` result lies inside the grid. -/
theorem get_neighbors_inb (w h : Int) (c p : Point)
    (hp : p ∈ get_neighbors w h c) : inGridB w h p = true :=
  (List.mem_filter.mp hp).2

/-- One relaxation never raises and preserves the A* invariant. -/
theorem relax_inv (P : AParams) (current last_dir : Point) (g : Dy)
    (st : AState) (nb : Point) (htg : P.targets ≠ [])
    (hc : inGridB P.w P.h current = true)
    (hnb : inGridB P.w P.h nb = true)
    (hst : astInv P.w P.h st) :
    ∃ st2, relax P current last_dir g st nb = .ok st2 ∧
      astInv P.w P.h st2 := by
  obtain ⟨hpq, hcf, hbest⟩ := hst
  obtain ⟨x, hx⟩ :=
    pyMinInt_ok (P.targets.map (fun t => manhattan nb t))
      (fun hmap => htg (List.map_eq_nil.mp hmap))
  simp only [relax, hx, Bind.bind, Except.bind]
  repeat' split
  all_goals
    first
      | exact ⟨st, rfl, hpq, hcf, hbest⟩
      | exact ⟨_, rfl, arrInv_heappush _ _ _ hpq hnb,
          mapInv_insert _ _ hcf _ _ hc, hbest⟩

/-- The neighbour relaxation fold never raises and preserves the A*
invariant. -/
theorem foldRelax_inv (P : AParams) (current last_dir : Point) (g : Dy)
    (htg : P.targets ≠ []) (hc : inGridB P.w P.h current = true) :
    ∀ (nbs : List Point), (∀ nb ∈ nbs, inGridB P.w P.h nb = true) →
      ∀ st, astInv P.w P.h st →
        ∃ st2, nbs.foldlM (relax P current last_dir g) st = .ok st2 ∧
          astInv P.w P.h st2 := by
  intro nbs
  induction nbs with
  | nil => intro _ st hst; exact ⟨st, rfl, hst⟩
  | cons nb rest ih =>
    intro hall st hst
    obtain ⟨st1, h1, hinv1⟩ := relax_inv P current last_dir g st nb htg hc
      (hall nb (List.mem_cons_self nb rest)) hst
    obtain ⟨st2, h2, hinv2⟩ :=
      ih (fun x hx => hall x (List.mem_cons_of_mem nb hx)) st1 hinv1
    refine ⟨st2, ?_, hinv2⟩
    simp only [List.foldlM_cons, h1, Bind.bind, Except.bind]
    exact h2

/-- One `while pq:` step never raises a Python exception and preserves
the A* invariant. -/
theorem astarStep_inv (P : AParams) (hw : 0 < P.w) (hh : 0 < P.h)
    (htg : P.targets ≠ []) (st : AState) (hst : astInv P.w P.h st) :
    ∃ st2 b, astarStep P st = .ok (st2, b) ∧ astInv P.w P.h st2 := by
  obtain ⟨hpq, hcf, hbest⟩ := hst
  have hdef : inGridB P.w P.h (default : Entry).pt = true := by
    show inGridB P.w P.h ⟨0, 0⟩ = true
    simp only [inGridB, Bool.and_eq_true, decide_eq_true_eq]
    omega
  unfold astarStep
  split
  · exact ⟨st, false, rfl, hpq, hcf, hbest⟩
  · rcases hpop : heappop st.pq with ⟨e, pq2⟩
    have hp := heappop_inv (fun e => inGridB P.w P.h e.pt = true) st.pq hdef hpq
    rw [hpop] at hp
    obtain ⟨he, hpq2⟩ := hp
    simp only [hpop]
    split
    · exact ⟨_, true, rfl, hpq2, hcf, hbest⟩
    · split
      · split
        · refine ⟨_, true, rfl, hpq2, hcf, ?_⟩
          intro b hb
          cases hb
          exact he
        · exact ⟨_, true, rfl, hpq2, hcf, hbest⟩
      · obtain ⟨st2, hfold, hinv2⟩ :=
          foldRelax_inv P e.pt e.dir e.g htg he (get_neighbors P.w P.h e.pt)
            (fun nb hnb => get_neighbors_inb P.w P.h e.pt nb hnb)
            { st with pq := pq2 } ⟨hpq2, hcf, hbest⟩
        refine ⟨st2, true, ?_, hinv2⟩
        simp only [hfold, Bind.bind, Except.bind]

/-- A `(st, false)` result is final for `runN`. -/
theorem runN_stop (P : AParams) :
    ∀ (m : Nat) (st : AState), runN P m (.ok (st, false)) = .ok (st, false) := by
  intro m
  induction m with
  | zero => intro st; rfl
  | succ k ih => intro st; simp only [runN]

/-- Iterating the loop never raises a Python exception and preserves
the A* invariant. -/
theorem runN_inv (P : AParams) (hw : 0 < P.w) (hh : 0 < P.h)
    (htg : P.targets ≠ []) :
    ∀ (n : Nat) (st : AState), astInv P.w P.h st →
      ∃ st2 b, runN P n (.ok (st, true)) = .ok (st2, b) ∧
        astInv P.w P.h st2 := by
  intro n
  induction n with
  | zero => intro st hst; exact ⟨st, true, rfl, hst⟩
  | succ m ih =>
    intro st hst
    obtain ⟨st2, b, hstep, hinv⟩ := astarStep_inv P hw hh htg st hst
    cases b
    · refine ⟨st2, false, ?_, hinv⟩
      simp only [runN, hstep]
      exact runN_stop P m st2
    · obtain ⟨st3, b3, h3, hinv3⟩ := ih st2 hinv
      refine ⟨st3, b3, ?_, hinv3⟩
      simp only [runN, hstep]
      exact h3

/-- The fuelled `while pq:` loop either runs out of fuel (model
artifact) or ends normally with the invariant. -/
theorem astarLoop_inv (P : AParams) (hw : 0 < P.w) (hh : 0 < P.h)
    (htg : P.targets ≠ []) (fuel : Nat) (st : AState)
    (hst : astInv P.w P.h st) :
    astarLoop P fuel st = .error Err.fuel ∨
      ∃ st2, astarLoop P fuel st = .ok st2 ∧ astInv P.w P.h st2 := by
  obtain ⟨st2, b, hrun, hinv⟩ := runN_inv P hw hh htg fuel st hst
  unfold astarLoop
  rw [hrun]
  cases b
  · exact .inr ⟨st2, rfl, hinv⟩
  · exact .inl rfl

/-- Path reconstruction stays inside the grid when the `came_from`
values, the start and the initial point do. -/
theorem reconstructLoop_inb (w h : Int) (cf : KeyMap (Point × Point))
    (hcf : mapInv (fun v => inGridB w h v.1 = true) cf) (start : Point)
    (hs : inGridB w h start = true) :
    ∀ (n : Nat) (curr dir : Point) (acc : List Point),
      inGridB w h curr = true → acc.all (inGridB w h) = true →
      reconstructLoop cf start n curr dir acc = .error Err.fuel ∨
        ∃ path, reconstructLoop cf start n curr dir acc = .ok path ∧
          path.all (inGridB w h) = true := by
  intro n
  induction n with
  | zero => intro curr dir acc _ _; exact .inl rfl
  | succ m ih =>
    intro curr dir acc hc hacc
    unfold reconstructLoop
    split
    · right
      refine ⟨_, rfl, ?_⟩
      simp only [List.all_cons, Bool.and_eq_true]
      exact ⟨hs, hacc⟩
    · cases hfind : cf.find? (curr, dir) with
      | none =>
        simp only [hfind]
        right
        refine ⟨_, rfl, ?_⟩
        simp only [List.all_cons, Bool.and_eq_true]
        exact ⟨hs, hc, hacc⟩
      | some v =>
        rcases v with ⟨p, pd⟩
        simp only [hfind]
        exact ih p pd (curr :: acc) (hcf _ _ hfind)
          (by simp only [List.all_cons, Bool.and_eq_true]; exact ⟨hc, hacc⟩)

/-- `_astar_multi_target` with an in-bounds start and a non-empty
target list either runs out of fuel (model artifact), returns `None`,
or returns a path that lies entirely inside the grid; it never raises
a Python exception. -/
theorem astar_inb (w h : Int) (occ : Grid) (hist : HGrid) (start : Point)
    (targets : List Point) (cm : Dy) (fuel : Nat)
    (hw : 0 < w) (hh : 0 < h) (hs : inGridB w h start = true)
    (htg : targets ≠ []) :
    astar_multi_target w h occ hist start targets cm fuel = .error Err.fuel ∨
      astar_multi_target w h occ hist start targets cm fuel = .ok none ∨
      ∃ path, astar_multi_target w h occ hist start targets cm fuel =
          .ok (some path) ∧ path.all (inGridB w h) = true := by
  have hinit : astInv w h (astarInit start) := by
    refine ⟨?_, ?_, ?_⟩
    · show arrInv (fun e => inGridB w h e.pt = true)
        (heappush #[] ⟨0, 0, start, ⟨0, 0⟩⟩)
      apply arrInv_heappush
      · intro i
        show inGridB w h ((#[] : Array Entry).getD i default).pt = true
        have hempty : ((#[] : Array Entry).getD i default) = default := rfl
        rw [hempty]
        show inGridB w h ⟨0, 0⟩ = true
        simp only [inGridB, Bool.and_eq_true, decide_eq_true_eq]
        omega
      · exact hs
    · intro k v hfind
      exact Option.noConfusion hfind
    · intro b hb
      exact Option.noConfusion hb
  obtain hcase := astarLoop_inv ⟨w, h, occ, hist, targets, cm, start⟩ hw hh htg
    fuel (astarInit start) hinit
  unfold astar_multi_target
  cases hcase with
  | inl herr =>
    simp only [herr]
    exact .inl trivial
  | inr hok =>
    obtain ⟨stF, hloop, hinv⟩ := hok
    simp only [hloop]
    cases hbest : stF.best with
    | none =>
      simp only [hbest]
      exact .inr (.inl trivial)
    | some bd =>
      rcases bd with ⟨pt, dir⟩
      simp only [hbest]
      have hb := hinv.2.2 (pt, dir) hbest
      have hrec := reconstructLoop_inb w h stF.came_from hinv.2.1 start hs
        (stF.came_from.size + 2) pt dir [] hb rfl
      cases hrec with
      | inl herr2 =>
        simp only [herr2]
        exact .inl trivial
      | inr hok2 =>
        obtain ⟨path, hpath, hall⟩ := hok2
        simp only [hpath]
        exact .inr (.inr ⟨path, rfl, hall⟩)

/-! ## Net-growth in-bounds lemmas (shared helpers for C8) -/

/-- Unpack a pin's `pinOkB` certificate. -/
theorem pinOkB_elim (w h : Int) (comps : List Component) (pin : Point)
    (hok : pinOkB w h comps pin = true) :
    ∃ stub exitp, pin_escape comps pin = some (stub, exitp) ∧
      stub.all (inGridB w h) = true ∧ inGridB w h exitp = true := by
  unfold pinOkB at hok
  cases hpe : pin_escape comps pin with
  | none =>
    simp only [hpe] at hok
    exact Bool.noConfusion hok
  | some v =>
    rcases v with ⟨stub, exitp⟩
    simp only [hpe, Bool.and_eq_true] at hok
    exact ⟨stub, exitp, rfl, hok.1, hok.2⟩

/-- The selection scan succeeds on a non-empty routed set and returns
either the incoming best pin or a scanned candidate. -/
theorem selectScan_mem (routed : List Point) (hr : routed ≠ []) :
    ∀ (cands : List Point) (best : Int × Point),
      ∃ r, selectScan routed best cands = .ok r ∧
        (r.2 = best.2 ∨ r.2 ∈ cands) := by
  intro cands
  induction cands with
  | nil => intro best; exact ⟨best, rfl, .inl rfl⟩
  | cons q rest ih =>
    intro best
    obtain ⟨x, hx⟩ := pyMinInt_ok (routed.map (fun rp => manhattan q rp))
      (fun hmap => hr (List.map_eq_nil.mp hmap))
    by_cases hlt : x < best.1
    · obtain ⟨r, hrec, hmem⟩ := ih (x, q)
      refine ⟨r, ?_, ?_⟩
      · simp only [selectScan, hx, Bind.bind, Except.bind, if_pos hlt]
        exact hrec
      · cases hmem with
        | inl h1 => exact .inr (by rw [h1]; exact List.mem_cons_self q rest)
        | inr h2 => exact .inr (List.mem_cons_of_mem q h2)
    · obtain ⟨r, hrec, hmem⟩ := ih best
      refine ⟨r, ?_, ?_⟩
      · simp only [selectScan, hx, Bind.bind, Except.bind, if_neg hlt]
        exact hrec
      · cases hmem with
        | inl h1 => exact .inl h1
        | inr h2 => exact .inr (List.mem_cons_of_mem q h2)

/-- Pin selection succeeds on a non-empty routed set and returns one
of the unconnected pins. -/
theorem selectPin_mem (routed : List Point) (hr : routed ≠ []) (p : Point)
    (rest : List Point) :
    ∃ r, selectPin routed p rest = .ok r ∧ r.2 ∈ p :: rest := by
  obtain ⟨x, hx⟩ := pyMinInt_ok (routed.map (fun rp => manhattan p rp))
    (fun hmap => hr (List.map_eq_nil.mp hmap))
  obtain ⟨r, hscan, hmem⟩ := selectScan_mem routed hr rest (x, p)
  refine ⟨r, ?_, ?_⟩
  · simp only [selectPin, hx, Bind.bind, Except.bind]
    exact hscan
  · cases hmem with
    | inl h1 => exact (by rw [h1]; exact List.mem_cons_self p rest)
    | inr h2 => exact List.mem_cons_of_mem p h2

/-- `set.add` never empties a set. -/
theorem setAdd_ne_nil (l : List Point) (p : Point) : setAdd l p ≠ [] := by
  unfold setAdd
  split
  · rename_i hmem
    intro hnil
    exact List.not_mem_nil p (hnil ▸ hmem)
  · simp

/-- Folding `set.add` over a list keeps a non-empty set non-empty. -/
theorem foldl_setAdd_ne_nil :
    ∀ (xs acc : List Point), acc ≠ [] → xs.foldl setAdd acc ≠ [] := by
  intro xs
  induction xs with
  | nil => intro acc hne; exact hne
  | cons x rest ih => intro acc _; exact ih (setAdd acc x) (setAdd_ne_nil acc x)

/-- Membership in `set.add`. -/
theorem mem_setAdd (l : List Point) (p x : Point) (h : x ∈ setAdd l p) :
    x ∈ l ∨ x = p := by
  unfold setAdd at h
  split at h
  · exact .inl h
  · rcases List.mem_append.mp h with h1 | h2
    · exact .inl h1
    · exact .inr (List.mem_singleton.mp h2)

/-- Membership after folding `set.add`. -/
theorem mem_foldl_setAdd :
    ∀ (xs acc : List Point) (x : Point), x ∈ xs.foldl setAdd acc →
      x ∈ acc ∨ x ∈ xs := by
  intro xs
  induction xs with
  | nil => intro acc x hx; exact .inl hx
  | cons y rest ih =>
    intro acc x hx
    rcases ih (setAdd acc y) x hx with h1 | h2
    · rcases mem_setAdd acc y x h1 with h3 | h4
      · exact .inl h3
      · exact .inr (by rw [h4]; exact List.mem_cons_self y rest)
    · exact .inr (List.mem_cons_of_mem y h2)

/-- `set(xs)` only contains elements of `xs`. -/
theorem pySet_mem (xs : List Point) (x : Point) (hx : x ∈ pySet xs) :
    x ∈ xs := by
  rcases mem_foldl_setAdd xs [] x hx with h1 | h2
  · exact absurd h1 (List.not_mem_nil x)
  · exact h2

/-- The growth loop either runs out of fuel (model artifact) or ends
normally with a full net path inside the grid; it never raises a
Python exception. -/
theorem growLoop_inb (w h : Int) (comps : List Component) (occ : Grid)
    (hist : HGrid) (cm : Dy) (afuel : Nat) (hw : 0 < w) (hh : 0 < h) :
    ∀ (gfuel : Nat) (unconnected routed full : List Point),
      routed ≠ [] →
      unconnected.all (pinOkB w h comps) = true →
      full.all (inGridB w h) = true →
      (growLoop w h comps occ hist cm afuel gfuel unconnected routed full =
          .error Err.fuel ∨
        ∃ res, growLoop w h comps occ hist cm afuel gfuel unconnected routed
            full = .ok res ∧ res.1.all (inGridB w h) = true) := by
  intro gfuel
  induction gfuel with
  | zero =>
    intro unconnected routed full _ _ hfull
    cases unconnected with
    | nil => exact .inr ⟨(full, routed, []), rfl, hfull⟩
    | cons p rest => exact .inl rfl
  | succ n ih =>
    intro unconnected routed full hr hpins hfull
    cases unconnected with
    | nil => exact .inr ⟨(full, routed, []), rfl, hfull⟩
    | cons p rest =>
      obtain ⟨r, hsel, hmem⟩ := selectPin_mem routed hr p rest
      rcases r with ⟨d, best⟩
      have hpinok : pinOkB w h comps best = true :=
        List.all_eq_true.mp hpins best hmem
      obtain ⟨stub, exitp, hesc, hstub, hexit⟩ :=
        pinOkB_elim w h comps best hpinok
      rcases astar_inb w h occ hist exitp routed cm afuel hw hh hexit hr with
        hfa | hnone | ⟨path, hsome, hpath⟩
      · left
        simp only [growLoop, hsel, Bind.bind, Except.bind, hesc, hfa]
      · right
        refine ⟨(full, routed, p :: rest), ?_, hfull⟩
        simp only [growLoop, hsel, Bind.bind, Except.bind, hesc, hnone]
      · have hrec := ih ((p :: rest).erase best)
          ((stub ++ path).foldl setAdd routed) (full ++ stub ++ path)
          (foldl_setAdd_ne_nil _ _ hr)
          (List.all_eq_true.mpr fun x hx =>
            List.all_eq_true.mp hpins x (List.mem_of_mem_erase hx))
          (List.all_eq_true.mpr fun x hx => by
            rcases List.mem_append.mp hx with h1 | h2
            · rcases List.mem_append.mp h1 with h3 | h4
              · exact List.all_eq_true.mp hfull x h3
              · exact List.all_eq_true.mp hstub x h4
            · exact List.all_eq_true.mp hpath x h2)
        rcases hrec with hrec1 | ⟨res, hres, hresall⟩
        · left
          simp only [growLoop, hsel, Bind.bind, Except.bind, hesc, hsome]
          exact hrec1
        · right
          refine ⟨res, ?_, hresall⟩
          simp only [growLoop, hsel, Bind.bind, Except.bind, hesc, hsome]
          exact hres

/-- Routing one net either runs out of fuel (model artifact) or
returns a full net path inside the grid; it never raises a Python
exception. -/
theorem routeNet_inb (w h : Int) (comps : List Component) (occ : Grid)
    (hist : HGrid) (cm : Dy) (afuel : Nat) (hw : 0 < w) (hh : 0 < h)
    (p0 : Point) (restPins : List Point)
    (hp0 : pinOkB w h comps p0 = true)
    (hrest : restPins.all (pinOkB w h comps) = true) :
    routeNet w h comps occ hist cm afuel p0 restPins = .error Err.fuel ∨
      ∃ full, routeNet w h comps occ hist cm afuel p0 restPins = .ok full ∧
        full.all (inGridB w h) = true := by
  obtain ⟨stub, exitp, hesc, hstub, hexit⟩ := pinOkB_elim w h comps p0 hp0
  have hr0 : setAdd (stub.foldl setAdd []) exitp ≠ [] := setAdd_ne_nil _ _
  have huncon : (pySet restPins).all (pinOkB w h comps) = true :=
    List.all_eq_true.mpr fun x hx =>
      List.all_eq_true.mp hrest x (pySet_mem restPins x hx)
  rcases growLoop_inb w h comps occ hist cm afuel hw hh
      (pySet restPins).length (pySet restPins)
      (setAdd (stub.foldl setAdd []) exitp) stub hr0 huncon hstub with
    hg1 | ⟨res, hres, hresall⟩
  · left
    simp only [routeNet, hesc, Bind.bind, Except.bind, hg1]
  · right
    rcases res with ⟨full, routed2, unc2⟩
    refine ⟨full, ?_, hresall⟩
    simp only [routeNet, hesc, Bind.bind, Except.bind, hres]

/-! ## C8: route() terminates within budget without exceptions -/

/-- In-bounds points normalise under numpy element indexing. -/
theorem inGridB_ptOkB (w h : Int) (p : Point)
    (hp : inGridB w h p = true) : ptOkB w h p = true := by
  simp only [inGridB, Bool.and_eq_true, decide_eq_true_eq] at hp
  unfold ptOkB npIndex
  rw [if_pos ⟨hp.1.1.1, hp.1.1.2⟩, if_pos ⟨hp.1.2, hp.2⟩]
  rfl

/-- Pointwise version of `inGridB_ptOkB` for a whole path. -/
theorem all_inGridB_ptOkB (w h : Int) (l : List Point)
    (hl : l.all (inGridB w h) = true) : l.all (ptOkB w h) = true :=
  List.all_eq_true.mpr fun x hx =>
    inGridB_ptOkB w h x (List.all_eq_true.mp hl x hx)

/-- An in-bounds table normalises everywhere. -/
theorem tableInB_ptOk (w h : Int) (t : Table)
    (ht : tableInB w h t = true) :
    t.all (fun e => e.2.all (ptOkB w h)) = true :=
  List.all_eq_true.mpr fun e he =>
    all_inGridB_ptOkB w h e.2 (List.all_eq_true.mp ht e he)

/-- `tableSet` with an in-bounds path preserves table in-boundsness. -/
theorem tableInB_tableSet (w h : Int) (t : Table) (k : Nat)
    (v : List Point) (ht : tableInB w h t = true)
    (hv : v.all (inGridB w h) = true) :
    tableInB w h (tableSet t k v) = true := by
  unfold tableSet
  split
  · refine List.all_eq_true.mpr fun e2 he2 => ?_
    rcases List.mem_map.mp he2 with ⟨e, he, heq⟩
    by_cases hek : e.1 = k
    · rw [← heq, if_pos hek]
      exact hv
    · rw [← heq, if_neg hek]
      exact List.all_eq_true.mp ht e he
  · refine List.all_eq_true.mpr fun e2 he2 => ?_
    rcases List.mem_append.mp he2 with h1 | h2
    · exact List.all_eq_true.mp ht e2 h1
    · rw [List.mem_singleton.mp h2]
      exact hv

/-- Processing one net either runs out of fuel (model artifact) or
succeeds with an in-bounds table; it never raises a Python exception. -/
theorem processNet_inb (w h : Int) (comps : List Component) (hist : HGrid)
    (cm : Dy) (afuel : Nat) (hw : 0 < w) (hh : 0 < h) (occ : Grid)
    (t : Table) (idpins : Nat × List Point)
    (ht : tableInB w h t = true)
    (hpins : idpins.2.all (pinOkB w h comps) = true) :
    processNet w h comps hist cm afuel (occ, t) idpins = .error Err.fuel ∨
      ∃ res, processNet w h comps hist cm afuel (occ, t) idpins = .ok res ∧
        tableInB w h res.2 = true := by
  rcases idpins with ⟨k, pins⟩
  cases pins with
  | nil => exact .inr ⟨(occ, t), rfl, ht⟩
  | cons p0 rest =>
    have hrip : ∃ occ1, ripOwn w h t k occ = .ok occ1 := by
      unfold ripOwn
      cases hf : tableFind? t k with
      | none => exact ⟨occ, rfl⟩
      | some old =>
        have hmem := tableFind?_mem t k old hf
        have hold : old.all (ptOkB w h) = true :=
          all_inGridB_ptOkB w h old (by
            have h1 := List.all_eq_true.mp ht (k, old) hmem
            simpa using h1)
        exact stampPath_ok w h (-WIRE_COST) old occ hold
    obtain ⟨occ1, hocc1⟩ := hrip
    have hp0 : pinOkB w h comps p0 = true :=
      List.all_eq_true.mp hpins p0 (List.mem_cons_self p0 rest)
    have hrest : rest.all (pinOkB w h comps) = true :=
      List.all_eq_true.mpr fun x hx =>
        List.all_eq_true.mp hpins x (List.mem_cons_of_mem p0 hx)
    rcases routeNet_inb w h comps occ1 hist cm afuel hw hh p0 rest hp0
        hrest with hfe | ⟨full, hfull, hfullin⟩
    · left
      simp only [processNet, hocc1, Bind.bind, Except.bind, hfe]
    · obtain ⟨occ2, hocc2⟩ := stampPath_ok w h WIRE_COST full occ1
        (all_inGridB_ptOkB w h full hfullin)
      right
      refine ⟨(occ2, tableSet t k full), ?_,
        tableInB_tableSet w h t k full ht hfullin⟩
      simp only [processNet, hocc1, Bind.bind, Except.bind, hfull, hocc2]

/-- The per-iteration net fold either runs out of fuel (model
artifact) or succeeds with an in-bounds table. -/
theorem netsFold_inb (w h : Int) (comps : List Component) (hist : HGrid)
    (cm : Dy) (afuel : Nat) (hw : 0 < w) (hh : 0 < h) :
    ∀ (l : List (Nat × List Point)) (occ : Grid) (t : Table),
      tableInB w h t = true →
      (∀ e ∈ l, e.2.all (pinOkB w h comps) = true) →
      (l.foldlM (processNet w h comps hist cm afuel) (occ, t) =
          .error Err.fuel ∨
        ∃ res, l.foldlM (processNet w h comps hist cm afuel) (occ, t) =
            .ok res ∧ tableInB w h res.2 = true) := by
  intro l
  induction l with
  | nil => intro occ t ht _; exact .inr ⟨(occ, t), rfl, ht⟩
  | cons e restl ih =>
    intro occ t ht hall
    rcases processNet_inb w h comps hist cm afuel hw hh occ t e ht
        (hall e (List.mem_cons_self e restl)) with hfe | ⟨res, hres, hres2⟩
    · left
      simp only [List.foldlM_cons, hfe, Bind.bind, Except.bind]
    · rcases res with ⟨occ2, t2⟩
      rcases ih occ2 t2 hres2 (fun x hx => hall x (List.mem_cons_of_mem e hx))
        with h1 | ⟨res2, hres3, hres4⟩
      · left
        simp only [List.foldlM_cons, hres, Bind.bind, Except.bind]
        exact h1
      · right
        refine ⟨res2, ?_, hres4⟩
        simp only [List.foldlM_cons, hres, Bind.bind, Except.bind]
        exact hres3

/-- One iteration of `route()` either runs out of fuel (model
artifact) or succeeds, bumping the iteration counter by one and
keeping the table in bounds. -/
theorem iterBody_inb (cfg : Config) (afuel iteration : Nat) (st : RState)
    (hw : 0 < cfg.width) (hh : 0 < cfg.height)
    (hnets : netsOkB cfg = true)
    (ht : tableInB cfg.width cfg.height st.table = true) :
    iterBody cfg afuel iteration st = .error Err.fuel ∨
      ∃ st2 b, iterBody cfg afuel iteration st = .ok (st2, b) ∧
        tableInB cfg.width cfg.height st2.table = true ∧
        st2.iters = st.iters + 1 := by
  obtain ⟨occ0, hocc0⟩ := rebuiltOcc_ok cfg.width cfg.height cfg.components
    st.table (tableInB_ptOk _ _ _ ht)
  have hallnets : ∀ e ∈ cfg.nets.enum,
      e.2.all (pinOkB cfg.width cfg.height cfg.components) = true := by
    intro e he
    have h2 : e.2 ∈ cfg.nets := by
      have h3 := List.mem_map_of_mem Prod.snd he
      rwa [List.enum_map_snd] at h3
    exact List.all_eq_true.mp hnets e.2 h2
  rcases netsFold_inb cfg.width cfg.height cfg.components st.hist st.cm afuel
      hw hh cfg.nets.enum occ0 st.table ht hallnets with
    hfe | ⟨⟨occ1, table1⟩, hfold, ht1⟩
  · left
    simp only [iterBody, hocc0, Bind.bind, Except.bind, hfe]
  · by_cases hovl : (overlapScan cfg.width cfg.height occ1).length = 0
    · right
      refine ⟨⟨occ1, st.hist, table1, st.cm,
          overlapScan cfg.width cfg.height occ1, st.iters + 1⟩, false,
        ?_, ht1, rfl⟩
      simp only [iterBody, hocc0, Bind.bind, Except.bind, hfold, if_pos hovl]
    · right
      refine ⟨⟨occ1,
          (overlapScan cfg.width cfg.height occ1).foldl
            (fun hg e => HGrid.addAt hg e.1 e.2 (Dy.ofInt (10 * (iteration + 1))))
            st.hist,
          table1, st.cm * Dy.threeHalves,
          overlapScan cfg.width cfg.height occ1, st.iters + 1⟩, true,
        ?_, ht1, rfl⟩
      simp only [iterBody, hocc0, Bind.bind, Except.bind, hfold, if_neg hovl]

/-- The iteration loop either runs out of fuel (model artifact) or
returns normally having executed at most one iteration per budget
entry. -/
theorem routeLoop_inb (cfg : Config) (afuel : Nat) (hw : 0 < cfg.width)
    (hh : 0 < cfg.height) (hnets : netsOkB cfg = true) :
    ∀ (its : List Nat) (st : RState),
      tableInB cfg.width cfg.height st.table = true →
      routeLoop cfg afuel its st = .error Err.fuel ∨
        ∃ st2, routeLoop cfg afuel its st = .ok st2 ∧
          st2.iters ≤ st.iters + its.length := by
  intro its
  induction its with
  | nil => intro st ht; exact .inr ⟨st, rfl, Nat.le_add_right _ _⟩
  | cons it restits ih =>
    intro st ht
    rcases iterBody_inb cfg afuel it st hw hh hnets ht with
      hfe | ⟨st2, b, hib, ht2, hiters⟩
    · left
      simp only [routeLoop, hfe]
    · cases b
      · right
        refine ⟨st2, ?_, ?_⟩
        · simp only [routeLoop, hib]
        · simp only [List.length_cons]
          omega
      · rcases ih st2 ht2 with h1 | ⟨st3, h3, hle⟩
        · left
          simp only [routeLoop, hib]
          exact h1
        · right
          refine ⟨st3, ?_, ?_⟩
          · simp only [routeLoop, hib]
            exact h3
          · simp only [List.length_cons]
            omega

/-- C8: for every configuration whose pins (through their escape
stubs) stay inside a non-degenerate grid, `route()` runs at most
`MAX_ITERATIONS` iterations and raises no Python exception: for every
inner-loop fuel budget it either returns normally — the routed-path
table then holds the best-effort, possibly overlapping, solution even
when overlap remains — or exhausts the fuel of a fuel-indexed loop
model artifact; `IndexError`/`ValueError` are unreachable. -/
theorem C8_route_best_effort (cfg : Config) (hw : 0 < cfg.width)
    (hh : 0 < cfg.height) (hnets : netsOkB cfg = true) (afuel : Nat) :
    route cfg afuel = .error Err.fuel ∨
      ∃ st, route cfg afuel = .ok st ∧ st.iters ≤ MAX_ITERATIONS := by
  rcases routeLoop_inb cfg afuel hw hh hnets (List.range MAX_ITERATIONS)
      initState rfl with h1 | ⟨st, hst, hle⟩
  · left
    unfold route
    exact h1
  · right
    refine ⟨st, ?_, ?_⟩
    · unfold route
      exact hst
    · have h4 : initState.iters + (List.range MAX_ITERATIONS).length =
          MAX_ITERATIONS := rfl
      exact h4 ▸ hle

/-- Witness for C8 at the concrete configuration `cfgC2`. -/
theorem C8_route_best_effort_witness :
    route cfgC2 20 = .error Err.fuel ∨
      ∃ st, route cfgC2 20 = .ok st ∧ st.iters ≤ MAX_ITERATIONS :=
  C8_route_best_effort cfgC2 (by decide) (by decide) (by decide) 20

end CircuitRouter
